import Mathlib

/-!
Verification development for the naylence-create template/flavor/generator core.

The TypeScript sources are shallowly embedded: strings are `String`
(char-level algorithms work on `String.data`), the filesystem is a finite
association list from paths (component lists) to nodes, asynchronous
fallible code returns `Except String _`, and JS truthiness of optional
strings is modelled explicitly.  Unicode-specific lowercasing beyond ASCII
is modelled by `Char.toLower`; the non-ASCII cases are erased by the
character-class filters of the functions under study.
-/

set_option maxRecDepth 8192

namespace Naylence

instance {ε α : Type} [DecidableEq ε] [DecidableEq α] : DecidableEq (Except ε α) := by
  intro a b
  cases a <;> cases b
  case error.error e f => exact decidable_of_iff (e = f) (by simp)
  case ok.ok x y => exact decidable_of_iff (x = y) (by simp)
  all_goals exact isFalse (by simp)

/-- The `a-z` test of the sanitizer character classes (equal to
`Char.isLower`, stated over `Char.toNat` for arithmetic reasoning). -/
def isLowerCh (c : Char) : Bool :=
  97 ≤ c.toNat && c.toNat ≤ 122

/-- The `0-9` test of the sanitizer character classes. -/
def isDigitCh (c : Char) : Bool :=
  48 ≤ c.toNat && c.toNat ≤ 57

/-- ASCII lowercasing, with the same body as `Char.toLower`; models JS
`toLowerCase` (non-ASCII mappings are erased by the later filters). -/
def asciiLower (c : Char) : Char :=
  if 65 ≤ c.toNat ∧ c.toNat ≤ 90 then Char.ofNat (c.toNat + 32) else c

/-- Model of the JS regex class `\s` restricted to ASCII whitespace
(space, tab, newline, carriage return, vertical tab, form feed). -/
def isJsWs (c : Char) : Bool :=
  c = ' ' || c = '\t' || c = '\n' || c = '\r' || c = '\x0b' || c = '\x0c'

/-- `collapseAux p r l inRun` maps every maximal run of characters
satisfying `p` to the single character `r`; models `replace(/X+/g, r)`. -/
def collapseAux (p : Char → Bool) (r : Char) : List Char → Bool → List Char
  | [], _ => []
  | c :: cs, inRun =>
    if p c then
      if inRun then collapseAux p r cs true
      else r :: collapseAux p r cs true
    else c :: collapseAux p r cs false

/-- Replace each maximal run of `p`-characters by the single character `r`. -/
def collapseRuns (p : Char → Bool) (r : Char) (l : List Char) : List Char :=
  collapseAux p r l false

/-- Models `replace(/^[…]/, "")`: the regex is anchored and not global, so
at most one leading character matching the class is removed. -/
def dropOneLeading (p : Char → Bool) : List Char → List Char
  | [] => []
  | c :: cs => if p c then cs else c :: cs

/-- Remove one trailing occurrence of `r`, if present. -/
def dropOneTrailing (r : Char) (l : List Char) : List Char :=
  match l.getLast? with
  | some c => if c = r then l.dropLast else l
  | none => l

/-- Models `replace(/^r|r$/g, "")` on a string with no `rr` runs left:
one leading and one trailing `r` are removed. -/
def trimEdges (r : Char) (l : List Char) : List Char :=
  dropOneTrailing r (dropOneLeading (fun c => c = r) l)

/-- `src/utils.ts` `toPackageName`, char-level pipeline:
lowercase; whitespace runs → "-"; "_" → "-"; drop chars outside
`[a-z0-9-@/]`; drop one leading char outside `[a-z@]`; collapse "-" runs;
trim one leading/trailing "-". -/
def toPackageNameData (l : List Char) : List Char :=
  let s1 := l.map asciiLower
  let s2 := collapseRuns isJsWs '-' s1
  let s3 := s2.map (fun c => if c = '_' then '-' else c)
  let s4 := s3.filter
    (fun c => isLowerCh c || isDigitCh c || c = '-' || c = '@' || c = '/')
  let s5 := dropOneLeading (fun c => !(isLowerCh c || c = '@')) s4
  let s6 := collapseRuns (fun c => c = '-') '-' s5
  trimEdges '-' s6

/-- `src/utils.ts` `toPackageName`. -/
def toPackageName (s : String) : String :=
  ⟨toPackageNameData s.data⟩

/-- `src/utils.ts` `toPythonPackage`, char-level pipeline:
lowercase; whitespace runs → "_"; "-" → "_"; drop chars outside
`[a-z0-9_]`; drop one leading char outside `[a-z]`; collapse "_" runs;
trim one leading/trailing "_". -/
def toPythonPackageData (l : List Char) : List Char :=
  let s1 := l.map asciiLower
  let s2 := collapseRuns isJsWs '_' s1
  let s3 := s2.map (fun c => if c = '-' then '_' else c)
  let s4 := s3.filter (fun c => isLowerCh c || isDigitCh c || c = '_')
  let s5 := dropOneLeading (fun c => !(isLowerCh c)) s4
  let s6 := collapseRuns (fun c => c = '_') '_' s5
  trimEdges '_' s6

/-- `src/utils.ts` `toPythonPackage`. -/
def toPythonPackage (s : String) : String :=
  ⟨toPythonPackageData s.data⟩

/-! ## Flavor selection (`src/flavor-selection.ts`) -/

/-- Filesystem path as a list of components (models `path.join` by list
append; all paths in play are built from clean components). -/
abbrev FsPath := List String

/-- Discovery's per-template output (`TemplateInfo` in `src/types.ts`).
Optional fields are `Option`; `flavorPaths` is an association list, empty
standing for the absent (`undefined`) record. -/
structure TemplateInfo where
  id : String
  name : Option String := none
  description : Option String := none
  flavors : List String
  flavorPaths : List (String × FsPath) := []
  path : FsPath := []
  order : Option Int := none
  category : Option String := none
  aliases : Option (List String) := none
  hidden : Option Bool := none
  deprecated : Option Bool := none
deriving Repr, DecidableEq

/-- The audit-trail reason of a flavor selection. -/
inductive FlavorReason
  | cli
  | default
  | only
  | prompt
deriving Repr, DecidableEq

/-- Result record of `selectFlavor`. -/
structure FlavorSelectionResult where
  flavor : String
  reason : FlavorReason
deriving Repr, DecidableEq

/-- JS truthiness of an optional string: `undefined` and `""` are falsy. -/
def jsTruthy : Option String → Bool
  | none => false
  | some s => !(s == "")

lemma jsTruthy_none' : jsTruthy (none : Option String) = false := rfl

lemma jsTruthy_some_empty : jsTruthy (some "") = false := by decide

/-- `flavors.join(", ")`. -/
def availableList (flavors : List String) : String :=
  String.intercalate ", " flavors

/-- Error message of `selectFlavor` when the cli-requested flavor is not in
the template's flavor list. -/
def cliNotFoundMessage (c id : String) (flavors : List String) : String :=
  ("Flavor \"" ++ c ++ "\" not found for template \"" ++ id ++ "\". ")
    ++ "Available flavors: " ++ availableList flavors ++ ".\n"
    ++ "Run with --list to see available templates."

/-- Error message of `selectFlavor` when the prompt-returned flavor is not
in the template's flavor list. -/
def promptNotFoundMessage (c id : String) (flavors : List String) : String :=
  ("Flavor \"" ++ c ++ "\" not found for template \"" ++ id ++ "\". ")
    ++ "Available flavors: " ++ availableList flavors ++ "."

/-- `selectFlavor` from `src/flavor-selection.ts`.  The prompt callback is
modelled by `promptResult : Option (Option String)`: `none` means no
callback was supplied; `some r` means a callback was supplied and returns
`r` when invoked (`r = none` models a `null` return).  The second component
of the result counts how many times the prompt callback was invoked. -/
def selectFlavor (template : TemplateInfo) (cliFlavor : Option String)
    (defaultFlavor : String) (promptResult : Option (Option String)) :
    Except String FlavorSelectionResult × Nat :=
  let flavors := template.flavors
  if flavors.length = 0 then
    (.error ("Template entry missing flavors for " ++ template.id), 0)
  else if jsTruthy cliFlavor then
    let c := cliFlavor.getD ""
    if flavors.contains c then (.ok ⟨c, .cli⟩, 0)
    else (.error (cliNotFoundMessage c template.id flavors), 0)
  else if flavors.contains defaultFlavor then (.ok ⟨defaultFlavor, .default⟩, 0)
  else if flavors.length = 1 then (.ok ⟨flavors.headD "", .only⟩, 0)
  else
    match promptResult with
    | none => (.error ("Flavor selection required for template \"" ++ template.id ++ "\""), 0)
    | some sel =>
      if !(jsTruthy sel) then (.error "Flavor selection cancelled", 1)
      else
        let s := sel.getD ""
        if flavors.contains s then (.ok ⟨s, .prompt⟩, 1)
        else (.error (promptNotFoundMessage s template.id flavors), 1)

/-- Substring containment of `pat` in `s` (JS `String.prototype.includes`). -/
def strContainsSub (s pat : String) : Prop :=
  pat.data <:+: s.data

instance (s pat : String) : Decidable (strContainsSub s pat) := by
  unfold strContainsSub
  infer_instance

lemma strContainsSub_append_right {t pat : String} (s : String)
    (h : strContainsSub t pat) : strContainsSub (s ++ t) pat := by
  obtain ⟨u, v, huv⟩ := h
  exact ⟨s.data ++ u, v, by simp [String.data_append, ← huv]⟩

lemma strContainsSub_append_left {s pat : String} (t : String)
    (h : strContainsSub s pat) : strContainsSub (s ++ t) pat := by
  obtain ⟨u, v, huv⟩ := h
  exact ⟨u, v ++ t.data, by simp [String.data_append, ← huv]⟩



/-! ## Claim theorems about the sanitizers and flavor selection -/

/-- C2: the spec claims `toPackageName` and `toPythonPackage` are
idempotent.  The code strips only ONE leading invalid character
(`replace(/^[^a-z@]/, "")` is not global), so on `"12abc"` one application
yields `"2abc"` while a second application yields `"abc"`: both sanitizers
fail idempotence, contradicting the spec and the functions' own doc
comments ("Ensure it starts with a letter"). -/
theorem sanitizers_not_idempotent_at_12abc :
    toPackageName "12abc" = "2abc" ∧
    toPackageName (toPackageName "12abc") = "abc" ∧
    toPythonPackage "12abc" = "2abc" ∧
    toPythonPackage (toPythonPackage "12abc") = "abc" ∧
    toPackageName (toPackageName "12abc") ≠ toPackageName "12abc" ∧
    toPythonPackage (toPythonPackage "12abc") ≠ toPythonPackage "12abc" :=
  ⟨by decide, by decide, by decide, by decide, by decide, by decide⟩

/-- C10: `selectFlavor` treats an empty-string `cliFlavor` exactly like an
absent one — `if (cliFlavor)` tests JS truthiness, and `""` is falsy — so
the whole decision proceeds identically, never failing with a
flavor-not-found error for `""`. -/
theorem selectFlavor_empty_cli_like_absent (t : TemplateInfo) (d : String)
    (p : Option (Option String)) :
    selectFlavor t (some "") d p = selectFlavor t none d p := by
  simp [selectFlavor, jsTruthy]

/-- C1: strict precedence cli > default > only > prompt for a template with
a non-empty flavors list.  "Given" for the optional cli flavor and for the
prompt's return value is formalized as JS-truthy (present and non-empty),
exactly as the source tests them with `if (cliFlavor)` / `if
(!selectedFlavor)`.  The second component of the result counts prompt
invocations: 0 in the first three branches, exactly 1 in the prompt
branch. -/
theorem selectFlavor_precedence (t : TemplateInfo) (cli : Option String)
    (d : String) (p : Option (Option String)) (hne : t.flavors ≠ []) :
    (∀ c, cli = some c → c ≠ "" → t.flavors.contains c = true →
        selectFlavor t cli d p = (.ok ⟨c, .cli⟩, 0)) ∧
    (jsTruthy cli = false → t.flavors.contains d = true →
        selectFlavor t cli d p = (.ok ⟨d, .default⟩, 0)) ∧
    (jsTruthy cli = false → t.flavors.contains d = false → t.flavors.length = 1 →
        selectFlavor t cli d p = (.ok ⟨t.flavors.headD "", .only⟩, 0)) ∧
    (∀ v, jsTruthy cli = false → t.flavors.contains d = false →
        t.flavors.length ≠ 1 → p = some (some v) → v ≠ "" →
        t.flavors.contains v = true →
        selectFlavor t cli d p = (.ok ⟨v, .prompt⟩, 1)) := by
  have hlen : ¬ t.flavors.length = 0 := by
    simpa [List.length_eq_zero] using hne
  refine ⟨?_, ?_, ?_, ?_⟩
  · intro c hc hce hmem
    subst hc
    have htr : jsTruthy (some c) = true := by
      simp [jsTruthy, hce]
    have hmem' : c ∈ t.flavors := by simpa using hmem
    simp [selectFlavor, hlen, htr, hmem']
  · intro hcli hmem
    have hmem' : d ∈ t.flavors := by simpa using hmem
    simp [selectFlavor, hlen, hcli, hmem']
  · intro hcli hd hone
    have hd' : d ∉ t.flavors := by simpa using hd
    simp [selectFlavor, hlen, hcli, hd', hone]
  · intro v hcli hd hone hp hve hmem
    subst hp
    have htr : jsTruthy (some v) = true := by
      simp [jsTruthy, hve]
    have hd' : d ∉ t.flavors := by simpa using hd
    have hmem' : v ∈ t.flavors := by simpa using hmem
    simp [selectFlavor, hlen, hcli, hd', hone, htr, hmem']

/-- C9 counterexample: the FlavorError raised when no flavor is
determinable and no prompt is available has the fixed message
`Flavor selection required for template "t"`, which neither enumerates the
template's valid flavors nor points at the catalog-listing capability. -/
theorem flavorError_message_counterexample :
    (selectFlavor ⟨"t", none, none, ["a", "b"], [], [], none, none, none,
        none, none⟩ none "z" none).1
        = .error "Flavor selection required for template \"t\"" ∧
    ¬ strContainsSub "Flavor selection required for template \"t\""
        "Available flavors" ∧
    ¬ strContainsSub "Flavor selection required for template \"t\"" "--list" :=
  ⟨by decide, by decide, by decide⟩

/-- C9 amended: of the four FlavorError failure modes, only the
cli-requested-flavor-not-found error carries a message that both
enumerates the valid flavors and points at the `--list` capability; the
invalid-prompt-selection error enumerates the flavors but has no listing
pointer; the cancelled-prompt and no-prompt-available failures are fixed
messages carrying neither. -/
theorem flavorError_messages (t : TemplateInfo) (d : String) :
    (∀ c p, c ≠ "" → t.flavors ≠ [] → t.flavors.contains c = false →
        selectFlavor t (some c) d p
            = (.error (cliNotFoundMessage c t.id t.flavors), 0) ∧
        strContainsSub (cliNotFoundMessage c t.id t.flavors)
            "Available flavors:" ∧
        strContainsSub (cliNotFoundMessage c t.id t.flavors) "--list") ∧
    (∀ cli v, t.flavors ≠ [] → jsTruthy cli = false →
        t.flavors.contains d = false → t.flavors.length ≠ 1 → v ≠ "" →
        t.flavors.contains v = false →
        selectFlavor t cli d (some (some v))
            = (.error (promptNotFoundMessage v t.id t.flavors), 1) ∧
        strContainsSub (promptNotFoundMessage v t.id t.flavors)
            "Available flavors:") ∧
    (∀ cli, t.flavors ≠ [] → jsTruthy cli = false →
        t.flavors.contains d = false → t.flavors.length ≠ 1 →
        selectFlavor t cli d (some none)
            = (.error "Flavor selection cancelled", 1) ∧
        selectFlavor t cli d (some (some ""))
            = (.error "Flavor selection cancelled", 1)) ∧
    (∀ cli, t.flavors ≠ [] → jsTruthy cli = false →
        t.flavors.contains d = false → t.flavors.length ≠ 1 →
        selectFlavor t cli d none
            = (.error ("Flavor selection required for template \""
                ++ t.id ++ "\""), 0)) := by
  refine ⟨?_, ?_, ?_, ?_⟩
  · intro c p hce hne hmem
    have hlen : ¬ t.flavors.length = 0 := by
      simpa [List.length_eq_zero] using hne
    have htr : jsTruthy (some c) = true := by
      simp [jsTruthy, hce]
    have hmem' : c ∉ t.flavors := by simpa using hmem
    refine ⟨by simp [selectFlavor, hlen, htr, hmem'], ?_, ?_⟩
    · have h0 : strContainsSub "Available flavors: " "Available flavors:" := by
        decide
      exact strContainsSub_append_left _ (strContainsSub_append_left _
        (strContainsSub_append_left _ (strContainsSub_append_right _ h0)))
    · have h0 : strContainsSub "Run with --list to see available templates."
          "--list" := by decide
      exact strContainsSub_append_right _ h0
  · intro cli v hne hcli hd hone hve hmem
    have hlen : ¬ t.flavors.length = 0 := by
      simpa [List.length_eq_zero] using hne
    have htr : jsTruthy (some v) = true := by
      simp [jsTruthy, hve]
    have hd' : d ∉ t.flavors := by simpa using hd
    have hmem' : v ∉ t.flavors := by simpa using hmem
    refine ⟨by simp [selectFlavor, hlen, hcli, hd', hone, htr, hmem'], ?_⟩
    have h0 : strContainsSub "Available flavors: " "Available flavors:" := by
      decide
    exact strContainsSub_append_left _ (strContainsSub_append_left _
      (strContainsSub_append_right _ h0))
  · intro cli hne hcli hd hone
    have hlen : ¬ t.flavors.length = 0 := by
      simpa [List.length_eq_zero] using hne
    have hd' : d ∉ t.flavors := by simpa using hd
    constructor
    · simp [selectFlavor, hlen, hcli, hd', hone, jsTruthy_none']
    · simp [selectFlavor, hlen, hcli, hd', hone, jsTruthy_some_empty]
  · intro cli hne hcli hd hone
    have hlen : ¬ t.flavors.length = 0 := by
      simpa [List.length_eq_zero] using hne
    have hd' : d ∉ t.flavors := by simpa using hd
    simp [selectFlavor, hlen, hcli, hd', hone]
/-! ## Filesystem model and template discovery (`src/templates.ts`) -/

/-- A filesystem node: a directory or a text file with its content. -/
inductive FsNode
  | dir
  | file (content : String)
deriving Repr, DecidableEq, Inhabited

/-- A filesystem: a finite association list from paths to nodes.  A real
filesystem has unique paths; that well-formedness is `FS.Wf` below. -/
structure FS where
  entries : List (FsPath × FsNode)
deriving Repr, DecidableEq

/-- Every path occurs at most once. -/
def FS.Wf (fs : FS) : Prop :=
  (fs.entries.map Prod.fst).Nodup

/-- Look a path up (`fs.stat`-style). -/
def FS.find (fs : FS) (p : FsPath) : Option FsNode :=
  (fs.entries.find? (fun e => decide (e.1 = p))).map (·.2)

/-- `fse.pathExists` / successful `fs.access`. -/
def FS.pathExists (fs : FS) (p : FsPath) : Bool :=
  (fs.find p).isSome

/-- `(await fs.stat(p)).isDirectory()` combined with the catch-all
`isDirectory` helper of `src/templates.ts` (false when the path is
missing). -/
def FS.isDirAt (fs : FS) (p : FsPath) : Bool :=
  match fs.find p with
  | some .dir => true
  | _ => false

/-- `fs.readdir(p, { withFileTypes: true })`: the immediate children of
`p`, with their nodes. -/
def FS.childEntries (fs : FS) (p : FsPath) : List (String × FsNode) :=
  fs.entries.filterMap (fun e =>
    match e.1.getLast? with
    | some n => if e.1.dropLast = p then some (n, e.2) else none
    | none => none)

/-- Create or overwrite an entry (`fs.writeFile` / directory creation). -/
def FS.setEntry (fs : FS) (p : FsPath) (n : FsNode) : FS :=
  if fs.entries.any (fun e => decide (e.1 = p)) then
    ⟨fs.entries.map (fun e => if e.1 = p then (p, n) else e)⟩
  else ⟨fs.entries ++ [(p, n)]⟩

/-- Render a component path as a display string (for error messages). -/
def pathToString (p : FsPath) : String :=
  String.intercalate "/" p

def TEMPLATES_DIR : String := "templates"

def MANIFEST_FILENAME : String := "manifest.json"

/-- A manifest flavor entry, post-normalization: the declared relative
path, when given, is modelled as a component list. -/
structure TemplateManifestFlavor where
  id : String
  path : Option FsPath := none
deriving Repr, DecidableEq

/-- A manifest template entry, post-normalization. -/
structure TemplateManifestEntry where
  id : String
  name : String
  description : String
  flavors : List TemplateManifestFlavor
  order : Option Int := none
  category : Option String := none
  aliases : Option (List String) := none
  hidden : Option Bool := none
  deprecated : Option Bool := none
deriving Repr, DecidableEq

/-- A normalized template manifest. -/
structure TemplateManifest where
  version : Option Int := none
  templates : List TemplateManifestEntry
deriving Repr, DecidableEq

/-- `flavor.path || flavor.id`: JS `||` also rejects an empty declared
path. -/
def effectiveRel (fl : TemplateManifestFlavor) : FsPath :=
  match fl.path with
  | some p => if p.isEmpty then [fl.id] else p
  | none => [fl.id]

/-- `<startersPath>/templates/manifest.json`. -/
def getManifestPath (startersPath : FsPath) : FsPath :=
  startersPath ++ [TEMPLATES_DIR, MANIFEST_FILENAME]

/-- `buildManifestWarning` from `src/templates.ts`. -/
def buildManifestWarning (startersPath : FsPath) (errMessage : String) : String :=
  ("Warning: Unable to read " ++ pathToString (getManifestPath startersPath))
    ++ " (" ++ errMessage ++ "). Falling back to directory scan."

/-- Outcome of `readTemplateManifest`: the manifest file may be absent
(`null` return), unreadable/unparsable/structurally invalid (a thrown
error carrying a message), or successfully normalized.  JSON reading and
parsing happen at the I/O boundary; this inductive is their result. -/
inductive ManifestReadResult
  | absent
  | failed (message : String)
  | ok (manifest : TemplateManifest)
deriving Repr, DecidableEq

/-- `templatesFromManifest`: keep each manifest entry whose base directory
exists; keep only flavors whose effective directory (declared path, else
flavor id, under the template directory) exists; drop entries with no
surviving flavor; record `flavorPaths` only where the effective path
differs from the flavor id. -/
def templatesFromManifest (fs : FS) (startersPath : FsPath)
    (manifest : TemplateManifest) : List TemplateInfo :=
  let templatesDir := startersPath ++ [TEMPLATES_DIR]
  manifest.templates.filterMap (fun entry =>
    let templatePath := templatesDir ++ [entry.id]
    if fs.isDirAt templatePath then
      let surviving := entry.flavors.filter
        (fun fl => fs.isDirAt (templatePath ++ effectiveRel fl))
      let flavors := surviving.map (·.id)
      let flavorPaths := surviving.filterMap (fun fl =>
        if effectiveRel fl ≠ [fl.id] then some (fl.id, effectiveRel fl)
        else none)
      if flavors.isEmpty then none
      else some
        { id := entry.id
          name := some entry.name
          description := some entry.description
          flavors := flavors
          flavorPaths := flavorPaths
          path := templatePath
          order := entry.order
          category := entry.category
          aliases := entry.aliases
          hidden := entry.hidden
          deprecated := entry.deprecated }
    else none)

/-- `scanTemplates`: fail when `<startersPath>/templates` is missing; else
each child directory is a template id, its child directories are the
flavors, and templates with zero flavor directories are dropped. -/
def scanTemplates (fs : FS) (startersPath : FsPath) :
    Except String (List TemplateInfo) :=
  let templatesDir := startersPath ++ [TEMPLATES_DIR]
  if !fs.pathExists templatesDir then
    .error ("Templates directory not found: " ++ pathToString templatesDir
      ++ "
Make sure NAYLENCE_STARTERS_PATH points to the starters repo root.")
  else
    .ok ((fs.childEntries templatesDir).filterMap (fun en =>
      match en.2 with
      | .dir =>
        let templatePath := templatesDir ++ [en.1]
        let flavors := (fs.childEntries templatePath).filterMap
          (fun fn => match fn.2 with | .dir => some fn.1 | _ => none)
        if flavors.isEmpty then none
        else some
          { id := en.1
            name := some en.1
            description := none
            flavors := flavors
            flavorPaths := []
            path := templatePath }
      | _ => none))

/-- The sort key comparison of `sortTemplates`: `order` first (missing
order sorts last), then case-insensitive name (falling back to the id);
`localeCompare` is modelled as code-point comparison of the lowercased
names. -/
def templateLE (a b : TemplateInfo) : Bool :=
  let aName : String := ⟨(a.name.getD a.id).data.map asciiLower⟩
  let bName : String := ⟨(b.name.getD b.id).data.map asciiLower⟩
  let nameLE : Bool := aName < bName || aName == bName
  match a.order, b.order with
  | some x, some y => if x ≠ y then decide (x ≤ y) else nameLE
  | some _, none => true
  | none, some _ => false
  | none, none => nameLE

/-- Sorted insertion for `sortTemplates`. -/
def insertTemplate (x : TemplateInfo) : List TemplateInfo → List TemplateInfo
  | [] => [x]
  | y :: ys => if templateLE x y then x :: y :: ys else y :: insertTemplate x ys

/-- `sortTemplates` (insertion sort by `templateLE`; the claims below
depend only on the result being a permutation). -/
def sortTemplates : List TemplateInfo → List TemplateInfo
  | [] => []
  | t :: ts => insertTemplate t (sortTemplates ts)

/-- `discoverTemplates`: use the manifest when one was read; fall back to
the directory scan when it is absent; fall back with a warning when
reading it failed.  The second component collects the `onWarning`
messages. -/
def discoverTemplates (fs : FS) (startersPath : FsPath)
    (read : ManifestReadResult) :
    Except String (List TemplateInfo) × List String :=
  match read with
  | .ok m =>
    (.ok (sortTemplates (templatesFromManifest fs startersPath m)), [])
  | .absent => ((scanTemplates fs startersPath).map sortTemplates, [])
  | .failed e =>
    ((scanTemplates fs startersPath).map sortTemplates,
      [buildManifestWarning startersPath e])

/-- `getTemplatePath`. -/
def getTemplatePath (startersPath : FsPath) (templateId flavor : String) :
    FsPath :=
  startersPath ++ [TEMPLATES_DIR, templateId, flavor]

/-- `resolveTemplateFlavorPath`: honor a manifest path override when the
manifest was read and mentions the template and flavor; otherwise (also on
any manifest read failure) fall back to the naive layout. -/
def resolveTemplateFlavorPath (read : ManifestReadResult)
    (startersPath : FsPath) (templateId flavor : String) : FsPath :=
  match read with
  | .ok m =>
    match m.templates.find? (fun t => decide (t.id = templateId)) with
    | some entry =>
      match entry.flavors.find? (fun it => decide (it.id = flavor)) with
      | some fl => startersPath ++ [TEMPLATES_DIR, templateId] ++ effectiveRel fl
      | none => getTemplatePath startersPath templateId flavor
    | none => getTemplatePath startersPath templateId flavor
  | _ => getTemplatePath startersPath templateId flavor

/-- The effective relative path of flavor `f` as recorded in a
`TemplateInfo`: the `flavorPaths` override when present, else the flavor
id itself. -/
def lookupRel (t : TemplateInfo) (f : String) : FsPath :=
  ((t.flavorPaths.find? (fun e => decide (e.1 = f))).map (·.2)).getD [f]

/-! ## Discovery lemmas -/

lemma mem_insertTemplate (x a : TemplateInfo) (l : List TemplateInfo) :
    a ∈ insertTemplate x l ↔ a = x ∨ a ∈ l := by
  induction l with
  | nil => simp [insertTemplate]
  | cons y ys ih =>
    simp only [insertTemplate]
    split
    · simp [List.mem_cons]
    · simp [List.mem_cons, ih]
      tauto

lemma mem_sortTemplates (a : TemplateInfo) (l : List TemplateInfo) :
    a ∈ sortTemplates l ↔ a ∈ l := by
  induction l with
  | nil => simp [sortTemplates]
  | cons t ts ih => simp [sortTemplates, mem_insertTemplate, ih]

lemma find?_key_unique {l : List (FsPath × FsNode)}
    (hnd : (l.map Prod.fst).Nodup) {p : FsPath} {n : FsNode}
    (h : (p, n) ∈ l) :
    l.find? (fun e => decide (e.1 = p)) = some (p, n) := by
  induction l with
  | nil => simp at h
  | cons e rest ih =>
    simp only [List.map_cons, List.nodup_cons] at hnd
    rcases List.mem_cons.mp h with h | h
    · subst h
      simp
    · have hne : ¬ (e.1 = p) := by
        intro heq
        exact hnd.1 (heq ▸ List.mem_map_of_mem Prod.fst h)
      rw [List.find?_cons_of_neg _ (by simpa using hne)]
      exact ih hnd.2 h

/-- On a well-formed filesystem, a listed entry is what lookup returns. -/
lemma FS.find_of_mem {fs : FS} (hwf : fs.Wf) {p : FsPath} {n : FsNode}
    (h : (p, n) ∈ fs.entries) : fs.find p = some n := by
  unfold FS.find
  rw [find?_key_unique hwf h]
  rfl

lemma eq_append_single_of_getLast? {α : Type} {l p : List α} {n : α}
    (hl : l.getLast? = some n) (hd : l.dropLast = p) : l = p ++ [n] := by
  induction l generalizing p with
  | nil => simp at hl
  | cons a t ih =>
    cases t with
    | nil =>
      simp at hl hd
      subst hl
      simp [← hd]
    | cons b t2 =>
      rw [List.getLast?_cons_cons] at hl
      simp only [List.dropLast] at hd
      subst hd
      have := ih hl rfl
      simp only [List.cons_append]
      exact congrArg (a :: ·) this

lemma mem_of_childEntries {fs : FS} {p : FsPath} {n : String} {nd : FsNode}
    (h : (n, nd) ∈ fs.childEntries p) : (p ++ [n], nd) ∈ fs.entries := by
  unfold FS.childEntries at h
  rw [List.mem_filterMap] at h
  obtain ⟨e, he, hsome⟩ := h
  cases hlast : e.1.getLast? with
  | none => rw [hlast] at hsome; simp at hsome
  | some m =>
    rw [hlast] at hsome
    dsimp only at hsome
    by_cases hdrop : e.1.dropLast = p
    · rw [if_pos hdrop] at hsome
      have hm := Option.some.inj hsome
      have hm1 : m = n := congrArg Prod.fst hm
      have hm2 : e.2 = nd := congrArg Prod.snd hm
      have he1 : e.1 = p ++ [n] := by
        rw [← hm1]
        exact eq_append_single_of_getLast? hlast hdrop
      have he' : e = (p ++ [n], nd) := by
        cases e
        simp only at he1 hm2
        rw [he1, hm2]
      rwa [he'] at he
    · rw [if_neg hdrop] at hsome
      simp at hsome

/-- Shape of every template produced by the directory scan: name = id,
no description, no flavor-path overrides, a non-empty flavors list, and a
directory entry on disk for every flavor. -/
lemma scanTemplates_mem {fs : FS} {root : FsPath} {L : List TemplateInfo}
    (hs : scanTemplates fs root = .ok L) {t : TemplateInfo} (ht : t ∈ L) :
    t.name = some t.id ∧ t.description = none ∧ t.flavorPaths = [] ∧
    t.path = (root ++ [TEMPLATES_DIR]) ++ [t.id] ∧ t.flavors ≠ [] ∧
    ∀ f ∈ t.flavors, (t.path ++ [f], FsNode.dir) ∈ fs.entries := by
  unfold scanTemplates at hs
  by_cases hex : fs.pathExists (root ++ [TEMPLATES_DIR]) = true
  · rw [if_neg (by simp [hex])] at hs
    have hL : L = (fs.childEntries (root ++ [TEMPLATES_DIR])).filterMap _ :=
      (Except.ok.inj hs).symm
    rw [hL] at ht
    rw [List.mem_filterMap] at ht
    obtain ⟨en, hen, hsome⟩ := ht
    cases hnd : en.2 with
    | file c => rw [hnd] at hsome; simp at hsome
    | dir =>
      rw [hnd] at hsome
      simp only at hsome
      by_cases hfl :
          ((fs.childEntries ((root ++ [TEMPLATES_DIR]) ++ [en.1])).filterMap
            (fun fn => match fn.2 with | .dir => some fn.1 | _ => none)).isEmpty
      · rw [if_pos hfl] at hsome; simp at hsome
      · rw [if_neg hfl] at hsome
        have ht' := Option.some.inj hsome
        subst ht'
        refine ⟨rfl, rfl, rfl, rfl, ?_, ?_⟩
        · intro hnil
          dsimp only at hnil
          rw [hnil] at hfl
          exact hfl rfl
        · intro f hf
          dsimp only at hf ⊢
          rw [List.mem_filterMap] at hf
          obtain ⟨fn, hfn, hfn2⟩ := hf
          cases hnd2 : fn.2 with
          | file c => rw [hnd2] at hfn2; simp at hfn2
          | dir =>
            rw [hnd2] at hfn2
            have : fn.1 = f := Option.some.inj hfn2
            subst this
            have := mem_of_childEntries hfn
            rwa [hnd2] at this
  · rw [if_pos (by simp [Bool.not_eq_true] at hex; simp [hex])] at hs
    exact absurd hs (by simp)

/-- Flavor-existence invariant for manifest-driven discovery. -/
lemma templatesFromManifest_mem {fs : FS} {root : FsPath}
    {m : TemplateManifest} {t : TemplateInfo}
    (ht : t ∈ templatesFromManifest fs root m) :
    t.flavors ≠ [] ∧
    ∀ f ∈ t.flavors, fs.isDirAt (t.path ++ lookupRel t f) = true := by
  unfold templatesFromManifest at ht
  rw [List.mem_filterMap] at ht
  obtain ⟨entry, hentry, hsome⟩ := ht
  simp only at hsome
  by_cases hdir : fs.isDirAt ((root ++ [TEMPLATES_DIR]) ++ [entry.id]) = true
  · rw [if_pos hdir] at hsome
    set surviving := entry.flavors.filter
      (fun fl => fs.isDirAt (((root ++ [TEMPLATES_DIR]) ++ [entry.id])
        ++ effectiveRel fl)) with hsurv
    by_cases hfl : (surviving.map (·.id)).isEmpty
    · rw [if_pos hfl] at hsome; simp at hsome
    · rw [if_neg hfl] at hsome
      have ht' := Option.some.inj hsome
      subst ht'
      constructor
      · intro hnil
        dsimp only at hnil
        rw [hnil] at hfl
        exact hfl rfl
      · intro f hf
        dsimp only at hf ⊢
        simp only [List.mem_map] at hf
        obtain ⟨fl, hflmem, hid⟩ := hf
        have hfldir : fs.isDirAt (((root ++ [TEMPLATES_DIR]) ++ [entry.id])
            ++ effectiveRel fl) = true :=
          (List.mem_filter.mp hflmem).2
        simp only [lookupRel]
        cases hfind : (surviving.filterMap (fun fl' =>
            if effectiveRel fl' ≠ [fl'.id]
            then some (fl'.id, effectiveRel fl') else none)).find?
            (fun e => decide (e.1 = f)) with
        | some pr =>
          have hkey : pr.1 = f := by
            have := List.find?_some hfind
            simpa using this
          have hmem := List.mem_of_find?_eq_some hfind
          rw [List.mem_filterMap] at hmem
          obtain ⟨fl', hfl'mem, hfl'some⟩ := hmem
          by_cases hne : effectiveRel fl' ≠ [fl'.id]
          · rw [if_pos hne] at hfl'some
            have hpr := Option.some.inj hfl'some
            have hfl'dir : fs.isDirAt (((root ++ [TEMPLATES_DIR])
                ++ [entry.id]) ++ effectiveRel fl') = true :=
              (List.mem_filter.mp hfl'mem).2
            simp only [Option.map_some', Option.getD_some]
            rw [← hpr]
            exact hfl'dir
          · rw [if_neg hne] at hfl'some
            simp at hfl'some
        | none =>
          simp only [Option.map_none', Option.getD_none]
          have hall := List.find?_eq_none.mp hfind
          by_cases hne : effectiveRel fl ≠ [fl.id]
          · exfalso
            have hmem : (fl.id, effectiveRel fl) ∈ surviving.filterMap
                (fun fl' => if effectiveRel fl' ≠ [fl'.id]
                  then some (fl'.id, effectiveRel fl') else none) := by
              rw [List.mem_filterMap]
              exact ⟨fl, hflmem, by rw [if_pos hne]⟩
            have h2 := hall _ hmem
            simp [hid] at h2
          · push_neg at hne
            rw [hid] at hne
            rw [← hne]
            exact hfldir
  · rw [if_neg hdir] at hsome
    simp at hsome

/-- C3 invariant theorem body, shared across manifest read outcomes. -/
lemma discover_flavor_invariant {fs : FS} {root : FsPath}
    {read : ManifestReadResult} {ts : List TemplateInfo} {ws : List String}
    (hwf : fs.Wf)
    (h : discoverTemplates fs root read = (.ok ts, ws)) :
    ∀ t ∈ ts, t.flavors ≠ [] ∧
      ∀ f ∈ t.flavors, fs.isDirAt (t.path ++ lookupRel t f) = true := by
  have hscan : ∀ L : List TemplateInfo, scanTemplates fs root = .ok L →
      ∀ t ∈ L, t.flavors ≠ [] ∧
        ∀ f ∈ t.flavors, fs.isDirAt (t.path ++ lookupRel t f) = true := by
    intro L hs t ht
    obtain ⟨_, _, hfp, _, hne, hmem⟩ := scanTemplates_mem hs ht
    refine ⟨hne, ?_⟩
    intro f hf
    have hrel : lookupRel t f = [f] := by
      simp [lookupRel, hfp]
    rw [hrel]
    have := FS.find_of_mem hwf (hmem f hf)
    simp [FS.isDirAt, this]
  cases read with
  | ok m =>
    simp only [discoverTemplates, Prod.mk.injEq] at h
    obtain ⟨h1, _⟩ := h
    have hts : ts = sortTemplates (templatesFromManifest fs root m) :=
      (Except.ok.inj h1).symm
    subst hts
    intro t ht
    rw [mem_sortTemplates] at ht
    exact templatesFromManifest_mem ht
  | absent =>
    simp only [discoverTemplates, Prod.mk.injEq] at h
    obtain ⟨h1, _⟩ := h
    cases hsc : scanTemplates fs root with
    | error e => rw [hsc] at h1; simp [Except.map] at h1
    | ok L =>
      rw [hsc] at h1
      have hts : ts = sortTemplates L := by
        simpa [Except.map] using h1.symm
      subst hts
      intro t ht
      rw [mem_sortTemplates] at ht
      exact hscan L hsc t ht
  | failed e =>
    simp only [discoverTemplates, Prod.mk.injEq] at h
    obtain ⟨h1, _⟩ := h
    cases hsc : scanTemplates fs root with
    | error e2 => rw [hsc] at h1; simp [Except.map] at h1
    | ok L =>
      rw [hsc] at h1
      have hts : ts = sortTemplates L := by
        simpa [Except.map] using h1.symm
      subst hts
      intro t ht
      rw [mem_sortTemplates] at ht
      exact hscan L hsc t ht

/-- C3: on a well-formed filesystem, every template in the discovery result
has a non-empty flavors list, and every flavor id corresponds to a
directory that exists on disk at the flavor's effective path (the
manifest-declared path recorded in `flavorPaths` when given, else the
flavor id, joined under the template's base directory); a manifest entry
whose declared flavors all fail the existence check produces no
`TemplateInfo` at all, since any produced one has a surviving flavor. -/
theorem discover_flavors_exist_on_disk (fs : FS) (root : FsPath)
    (read : ManifestReadResult) (ts : List TemplateInfo) (ws : List String)
    (hwf : fs.Wf)
    (h : discoverTemplates fs root read = (.ok ts, ws)) :
    ∀ t ∈ ts, t.flavors ≠ [] ∧
      ∀ f ∈ t.flavors, fs.isDirAt (t.path ++ lookupRel t f) = true :=
  discover_flavor_invariant hwf h

/-- C4: when reading the manifest failed (unparsable or structurally
invalid file) and the templates directory exists, discovery does not fail:
it emits exactly one warning, whose text contains `"Warning:"`, and
returns exactly the (sorted) templates of the directory scan, each with
`name` equal to its directory-name id and no description. -/
theorem discover_falls_back_on_bad_manifest (fs : FS) (root : FsPath)
    (e : String)
    (hdir : fs.pathExists (root ++ [TEMPLATES_DIR]) = true) :
    ∃ ts, scanTemplates fs root = .ok ts ∧
      discoverTemplates fs root (.failed e)
        = (.ok (sortTemplates ts), [buildManifestWarning root e]) ∧
      strContainsSub (buildManifestWarning root e) "Warning:" ∧
      ∀ t ∈ sortTemplates ts, t.name = some t.id ∧ t.description = none := by
  have hscan : scanTemplates fs root = .ok
      ((fs.childEntries (root ++ [TEMPLATES_DIR])).filterMap (fun en =>
        match en.2 with
        | .dir =>
          let templatePath := (root ++ [TEMPLATES_DIR]) ++ [en.1]
          let flavors := (fs.childEntries templatePath).filterMap
            (fun fn => match fn.2 with | .dir => some fn.1 | _ => none)
          if flavors.isEmpty then none
          else some
            { id := en.1
              name := some en.1
              description := none
              flavors := flavors
              flavorPaths := []
              path := templatePath }
        | _ => none)) := by
    unfold scanTemplates
    rw [if_neg (by simp [hdir])]
  refine ⟨_, hscan, ?_, ?_, ?_⟩
  · simp only [discoverTemplates, hscan, Except.map]
  · have h0 : strContainsSub "Warning: Unable to read " "Warning:" := by
      decide
    exact strContainsSub_append_left _ (strContainsSub_append_left _
      (strContainsSub_append_left _ (strContainsSub_append_left _ h0)))
  · intro t ht
    rw [mem_sortTemplates] at ht
    obtain ⟨h1, h2, _⟩ := scanTemplates_mem hscan ht
    exact ⟨h1, h2⟩

/-! ## Project generator (`src/generator.ts`) -/

/-- Prepend a char to the first line of a line list. -/
def consHead (c : Char) : List (List Char) → List (List Char)
  | [] => [[c]]
  | l :: ls => (c :: l) :: ls

/-- `content.split(/\r?\n/)`: a `\n` breaks a line; a `\r` immediately
followed by `\n` breaks a line consuming both; any other char is
literal. -/
def splitLinesData : List Char → List (List Char)
  | [] => [[]]
  | [c] => if c = '\n' then [[], []] else [[c]]
  | c :: d :: rest =>
    if c = '\n' then [] :: splitLinesData (d :: rest)
    else if c = '\r' ∧ d = '\n' then [] :: splitLinesData rest
    else consHead c (splitLinesData (d :: rest))

/-- Remove one trailing carriage return.  Helper for `splitLinesData`
append lemmas: the `\r?` of the separator merges a trailing `\r` with an
appended `\n`. -/
def stripCR : List Char → List Char
  | [] => []
  | c :: rest => if c = '\r' ∧ rest = [] then [] else c :: stripCR rest

/-- Apply `stripCR` to the last element of a line list. -/
def closeLine : List (List Char) → List (List Char)
  | [] => []
  | l :: ls => if ls = [] then [stripCR l] else l :: closeLine ls

/-- JS `String.prototype.trim`, restricted to the ASCII whitespace of
`isJsWs` (the gitignore entries in play are ASCII). -/
def jsTrimData (l : List Char) : List Char :=
  ((l.dropWhile isJsWs).reverse.dropWhile isJsWs).reverse

/-- Scanner of `replaceAll`: when `skip = k+1` the char is part of an
already-matched occurrence and is consumed silently; at `skip = 0` a match
emits the replacement and schedules the remaining `t.length - 1` matched
chars for consumption. -/
def replAux (t v : List Char) : List Char → Nat → List Char
  | [], _ => []
  | _ :: rest, k+1 => replAux t v rest k
  | c :: rest, 0 =>
    if t ≠ [] ∧ t <+: (c :: rest) then v ++ replAux t v rest (t.length - 1)
    else c :: replAux t v rest 0

/-- JS `String.prototype.replaceAll` for a non-empty literal pattern: one
left-to-right pass, non-overlapping matches, scanning resumes after each
replacement.  (The tokens of the program are non-empty, so the empty
pattern never arises; for it this model returns `s` unchanged.) -/
def replaceAllData (t v s : List Char) : List Char :=
  replAux t v s 0

lemma replAux_skip (t v : List Char) :
    ∀ (s : List Char) (k : Nat), replAux t v s k = replaceAllData t v (s.drop k) := by
  intro s
  induction s with
  | nil =>
    intro k
    simp [replaceAllData, replAux, List.drop_nil]
  | cons c rest ih =>
    intro k
    cases k with
    | zero => rfl
    | succ k =>
      show replAux t v rest k = _
      rw [ih k]
      rfl

lemma replaceAll_cons_match {t : List Char} (v : List Char) {c : Char}
    {rest : List Char} (h : t ≠ [] ∧ t <+: (c :: rest)) :
    replaceAllData t v (c :: rest)
      = v ++ replaceAllData t v ((c :: rest).drop t.length) := by
  show replAux t v (c :: rest) 0 = _
  rw [show replAux t v (c :: rest) 0
      = if t ≠ [] ∧ t <+: (c :: rest) then
          v ++ replAux t v rest (t.length - 1)
        else c :: replAux t v rest 0 from rfl]
  rw [if_pos h, replAux_skip]
  have ht : t.length - 1 + 1 = t.length := by
    cases t with
    | nil => exact absurd rfl h.1
    | cons x xs => simp
  congr 1
  rw [show (c :: rest).drop t.length = rest.drop (t.length - 1) from by
    conv_lhs => rw [← ht]
    rfl]

lemma replaceAll_cons_nomatch {t : List Char} (v : List Char) {c : Char}
    {rest : List Char} (h : ¬ (t ≠ [] ∧ t <+: (c :: rest))) :
    replaceAllData t v (c :: rest) = c :: replaceAllData t v rest := by
  show replAux t v (c :: rest) 0 = _
  rw [show replAux t v (c :: rest) 0
      = if t ≠ [] ∧ t <+: (c :: rest) then
          v ++ replAux t v rest (t.length - 1)
        else c :: replAux t v rest 0 from rfl]
  rw [if_neg h]
  rfl

/-- String wrapper of `replaceAllData`. -/
def replaceAllStr (t v s : String) : String :=
  ⟨replaceAllData t.data v.data s.data⟩

/-- `substituteInFile`'s content transformation: for each
`(placeholder, value)` in order, replace all occurrences when the content
includes the placeholder. -/
def substituteContent (subs : List (String × String)) (content : String) :
    String :=
  subs.foldl (fun acc pv =>
    if pv.1.data <:+: acc.data then replaceAllStr pv.1 pv.2 acc else acc)
    content

/-- The extension (from the last dot) of a tail-of-basename char list. -/
def lastDotSplit : List Char → Option (List Char)
  | [] => none
  | c :: rest =>
    match lastDotSplit rest with
    | some e => some e
    | none => if c = '.' then some (c :: rest) else none

/-- `path.extname` on a basename: the substring from the last `.`; a dot
in leading position does not count (`.gitignore` has no extension). -/
def extname (base : String) : String :=
  match base.data with
  | [] => ""
  | _ :: rest =>
    match lastDotSplit rest with
    | some e => ⟨e⟩
    | none => ""

/-- `BINARY_EXTENSIONS` from `src/types.ts`. -/
def BINARY_EXTENSIONS : List String :=
  [".png", ".jpg", ".jpeg", ".gif", ".ico", ".webp", ".svg", ".woff",
   ".woff2", ".ttf", ".eot", ".otf", ".zip", ".tar", ".gz", ".bz2", ".7z",
   ".rar", ".pdf", ".exe", ".dll", ".so", ".dylib", ".node", ".wasm"]

/-- `isBinaryFile` from `src/utils.ts`: lowercased extension of the
basename is in the allowlist. -/
def isBinaryFile (p : FsPath) : Bool :=
  match p.getLast? with
  | some base => BINARY_EXTENSIONS.contains ⟨(extname base).data.map asciiLower⟩
  | none => false

def EXCLUDE_DIRS : List String :=
  [".git", "node_modules", "dist", ".tmp", "__pycache__", ".venv", "venv"]

def EXCLUDE_FILES : List String :=
  ["package-lock.json", "pnpm-lock.yaml", "yarn.lock", "bun.lockb", ".env"]

/-- `filename.startsWith(".env.") && filename.endsWith(".template")`. -/
def isEnvTemplateName (name : String) : Bool :=
  decide (".env.".data <+: name.data) && decide (".template".data <:+ name.data)

/-- `path.relative(src, q)` for `q` under `src`: strip the prefix
componentwise, `none` when `q` is not under `src`. -/
def dropPrefixPath : FsPath → FsPath → Option FsPath
  | [], q => some q
  | _ :: _, [] => none
  | a :: as, b :: bs => if a = b then dropPrefixPath as bs else none

/-- The `fse.copy` filter of `copyTemplate`, on the relative path:
root-level lock files and `.env` are skipped; `.env.*.template` files are
skipped everywhere; any entry with an excluded directory name among its
components is skipped. -/
def copyFilterRel (rel : FsPath) : Bool :=
  match rel.getLast? with
  | none => true
  | some filename =>
    !(decide (rel.length = 1) && EXCLUDE_FILES.contains filename)
      && !(isEnvTemplateName filename)
      && !(rel.any (fun part => EXCLUDE_DIRS.contains part))

/-- `copyTemplate`: copy the `src` subtree to `dest` applying the filter;
`fse.copy` also creates the destination directory itself. -/
def copyTemplate (fs : FS) (src dest : FsPath) : FS :=
  let toCopy := fs.entries.filterMap (fun e =>
    match dropPrefixPath src e.1 with
    | some rel =>
      if rel.isEmpty then none
      else if copyFilterRel rel then some (dest ++ rel, e.2) else none
    | none => none)
  ((dest, FsNode.dir) :: toCopy).foldl (fun acc pe => acc.setEntry pe.1 pe.2) fs

/-- The substitution map of `buildSubstitutions`. -/
def buildSubstitutions (projectName : String) : List (String × String) :=
  [("__PROJECT_NAME__", projectName),
   ("__PACKAGE_NAME__", toPackageName projectName),
   ("__PY_PACKAGE__", toPythonPackage projectName)]

/-- True when the walk of `substituteInDirectory` never reaches `rel`
because an ancestor directory is named `node_modules` or `.git`. -/
def underExcludedDir (rel : FsPath) : Bool :=
  rel.dropLast.any (fun part => part == "node_modules" || part == ".git")

/-- `substituteInDirectory` + `substituteInFile`: rewrite every file under
`dirPath` that is not beneath a `node_modules`/`.git` directory and whose
extension is not in the binary allowlist.  The recursive walk of the
source visits exactly these files; on the flat map it is a pointwise
transformation. -/
def substituteInDirectory (fs : FS) (dirPath : FsPath)
    (subs : List (String × String)) : FS :=
  ⟨fs.entries.map (fun e =>
    match dropPrefixPath dirPath e.1 with
    | some rel =>
      if rel.isEmpty || underExcludedDir rel then e
      else
        match e.2 with
        | .file content =>
          if isBinaryFile e.1 then e
          else (e.1, .file (substituteContent subs content))
        | .dir => e
    | none => e)⟩

/-- `fs.copyFile src dst`. -/
def copyFileNode (fs : FS) (src dst : FsPath) : Except String FS :=
  match fs.find src with
  | some (.file c) => .ok (fs.setEntry dst (.file c))
  | some .dir =>
    .error ("EISDIR: illegal operation on a directory, copyfile "
      ++ pathToString src)
  | none =>
    .error ("ENOENT: no such file or directory, copyfile "
      ++ pathToString src)

/-- One iteration of `ensureEnvFiles`: skip when the target exists; copy
the template when one exists at the source; only warn otherwise. -/
def ensureEnvFile (fs : FS) (templateDir destDir : FsPath) (name : String) :
    Except String FS :=
  let templatePath := templateDir ++ [".env." ++ name ++ ".template"]
  let outPath := destDir ++ [".env." ++ name]
  if fs.pathExists outPath then .ok fs
  else if fs.pathExists templatePath then copyFileNode fs templatePath outPath
  else .ok fs

/-- `ensureEnvFiles` over `["agent", "client"]`, threading the filesystem
and stopping at the first error (a thrown copy failure). -/
def ensureEnvFiles (fs : FS) (templateDir destDir : FsPath) :
    Except String Unit × FS :=
  match ensureEnvFile fs templateDir destDir "agent" with
  | .error e => (.error e, fs)
  | .ok fs1 =>
    match ensureEnvFile fs1 templateDir destDir "client" with
    | .error e => (.error e, fs1)
    | .ok fs2 => (.ok (), fs2)

def GITIGNORE_ENTRIES : List String := [".env.agent", ".env.client"]

/-- `content.endsWith("\n")`. -/
def strEndsWithNewline (s : String) : Bool :=
  s.data.getLast? == some '\n'

/-- The trimmed non-empty lines of a gitignore content
(`content.split(/\r?\n/).map(trim).filter(nonempty)`). -/
def gitignoreExistingData (l : List Char) : List (List Char) :=
  ((splitLinesData l).map jsTrimData).filter (fun x => !x.isEmpty)

/-- The entries not already present as a trimmed whole line. -/
def gitignoreMissing (content : String) : List String :=
  GITIGNORE_ENTRIES.filter
    (fun e => !(gitignoreExistingData content.data).contains e.data)

/-- `ensureGitignoreHasEnvEntries`: create the file with exactly the two
entries when absent; append the missing entries (with a separating newline
when the content does not end with one) when present; reading a directory
at that path throws. -/
def ensureGitignoreHasEnvEntries (fs : FS) (destDir : FsPath) :
    Except String FS :=
  let gitignorePath := destDir ++ [".gitignore"]
  match fs.find gitignorePath with
  | none =>
    .ok (fs.setEntry gitignorePath
      (.file (String.intercalate "\n" GITIGNORE_ENTRIES ++ "\n")))
  | some (.file content) =>
    let missing := gitignoreMissing content
    if missing.isEmpty then .ok fs
    else
      let separator := if strEndsWithNewline content then "" else "\n"
      .ok (fs.setEntry gitignorePath
        (.file (content ++ separator ++ String.intercalate "\n" missing ++ "\n")))
  | some .dir =>
    .error ("EISDIR: illegal operation on a directory, read "
      ++ pathToString gitignorePath)

/-- `validateTargetDir`: ok when missing; fail when the target is a file
or a non-empty directory. -/
def validateTargetDir (fs : FS) (targetPath : FsPath) : Except String Unit :=
  match fs.find targetPath with
  | none => .ok ()
  | some (.file _) =>
    .error ("Target path exists but is not a directory: "
      ++ pathToString targetPath)
  | some .dir =>
    if (fs.childEntries targetPath).isEmpty then .ok ()
    else
      .error (("Target directory is not empty: " ++ pathToString targetPath)
        ++ "\nPlease choose an empty directory or a new path.")

/-- `GeneratorOptions` (the `install` flag drives the out-of-scope package
manager step and is omitted; `targetDir` is the already-resolved target
path). -/
structure GeneratorOptions where
  targetDir : FsPath
  templateId : String
  flavor : String
  projectName : String
  startersPath : FsPath
deriving Repr

/-- `generateProject`: resolve the template path, require it to exist,
validate the target, then copy, substitute, bootstrap env files and the
gitignore.  The returned filesystem is the state at normal or abrupt
termination (a thrown error leaves the state as it was). -/
def generateProject (fs : FS) (read : ManifestReadResult)
    (opts : GeneratorOptions) : Except String Unit × FS :=
  let templatePath := resolveTemplateFlavorPath read opts.startersPath
    opts.templateId opts.flavor
  let targetPath := opts.targetDir
  if !fs.pathExists templatePath then
    (.error ("Template not found: " ++ opts.templateId ++ "/" ++ opts.flavor
      ++ "\nPath: " ++ pathToString templatePath
      ++ "\nRun with --list to see available templates."), fs)
  else
    match validateTargetDir fs targetPath with
    | .error e => (.error e, fs)
    | .ok _ =>
      let fs1 := copyTemplate fs templatePath targetPath
      let fs2 := substituteInDirectory fs1 targetPath
        (buildSubstitutions opts.projectName)
      match ensureEnvFiles fs2 templatePath targetPath with
      | (.error e, fs3) => (.error e, fs3)
      | (.ok _, fs3) =>
        match ensureGitignoreHasEnvEntries fs3 targetPath with
        | .error e => (.error e, fs3)
        | .ok fs4 => (.ok (), fs4)

/-! ## setEntry lookup lemmas -/

lemma find?_cons_true {l : List (FsPath × FsNode)} {q : FsPath}
    {e : FsPath × FsNode} (he : e.1 = q) :
    List.find? (fun x => decide (x.1 = q)) (e :: l) = some e := by
  simp [List.find?, he]

lemma find?_cons_false {l : List (FsPath × FsNode)} {q : FsPath}
    {e : FsPath × FsNode} (he : ¬ e.1 = q) :
    List.find? (fun x => decide (x.1 = q)) (e :: l)
      = List.find? (fun x => decide (x.1 = q)) l := by
  simp [List.find?, he]

lemma find?_map_set {l : List (FsPath × FsNode)} {p : FsPath} {n : FsNode}
    (hany : l.any (fun e => decide (e.1 = p)) = true) :
    (l.map (fun e => if e.1 = p then (p, n) else e)).find?
      (fun e => decide (e.1 = p)) = some (p, n) := by
  induction l with
  | nil => simp at hany
  | cons e rest ih =>
    by_cases hp : e.1 = p
    · rw [List.map_cons, if_pos hp,
        find?_cons_true (show ((p, n) : FsPath × FsNode).1 = p from rfl)]
    · rw [List.map_cons, if_neg hp, find?_cons_false hp]
      apply ih
      simpa [hp] using hany

lemma find?_append_last {l : List (FsPath × FsNode)} {p : FsPath} {n : FsNode}
    (hnone : ∀ e ∈ l, ¬ e.1 = p) :
    (l ++ [(p, n)]).find? (fun e => decide (e.1 = p)) = some (p, n) := by
  induction l with
  | nil => simp
  | cons e rest ih =>
    rw [List.cons_append, find?_cons_false (hnone e (by simp))]
    exact ih (fun x hx => hnone x (List.mem_cons_of_mem _ hx))

lemma find?_map_preserve {l : List (FsPath × FsNode)} {p q : FsPath}
    {n : FsNode} (hne : q ≠ p) :
    (l.map (fun e => if e.1 = p then (p, n) else e)).find?
      (fun e => decide (e.1 = q)) = l.find? (fun e => decide (e.1 = q)) := by
  induction l with
  | nil => rfl
  | cons e rest ih =>
    by_cases hp : e.1 = p
    · have h1 : ¬ (((p, n) : FsPath × FsNode).1 = q) := fun h => hne h.symm
      have h2 : ¬ e.1 = q := by
        rw [hp]
        exact fun h => hne h.symm
      rw [List.map_cons, if_pos hp, find?_cons_false h1, find?_cons_false h2]
      exact ih
    · by_cases hq : e.1 = q
      · rw [List.map_cons, if_neg hp, find?_cons_true hq, find?_cons_true hq]
      · rw [List.map_cons, if_neg hp, find?_cons_false hq,
          find?_cons_false hq]
        exact ih

lemma find?_append_single_ne {l : List (FsPath × FsNode)} {p q : FsPath}
    {n : FsNode} (hne : q ≠ p) :
    (l ++ [(p, n)]).find? (fun e => decide (e.1 = q))
      = l.find? (fun e => decide (e.1 = q)) := by
  induction l with
  | nil =>
    have h1 : ¬ (((p, n) : FsPath × FsNode).1 = q) := fun h => hne h.symm
    rw [List.nil_append, find?_cons_false h1]
  | cons e rest ih =>
    by_cases hq : e.1 = q
    · rw [List.cons_append, find?_cons_true hq, find?_cons_true hq]
    · rw [List.cons_append, find?_cons_false hq, find?_cons_false hq]
      exact ih

lemma FS.find_setEntry_self (fs : FS) (p : FsPath) (n : FsNode) :
    (fs.setEntry p n).find p = some n := by
  unfold FS.setEntry
  by_cases hany : fs.entries.any (fun e => decide (e.1 = p)) = true
  · rw [if_pos hany]
    simp only [FS.find]
    rw [find?_map_set hany]
    rfl
  · rw [if_neg hany]
    simp only [FS.find]
    have hnone : ∀ e ∈ fs.entries, ¬ e.1 = p := by
      intro e he heq
      apply hany
      rw [List.any_eq_true]
      exact ⟨e, he, by simpa using heq⟩
    rw [find?_append_last hnone]
    rfl

lemma FS.find_setEntry_ne (fs : FS) {p q : FsPath} (n : FsNode)
    (hne : q ≠ p) : (fs.setEntry p n).find q = fs.find q := by
  unfold FS.setEntry
  by_cases hany : fs.entries.any (fun e => decide (e.1 = p)) = true
  · rw [if_pos hany]
    simp only [FS.find]
    rw [find?_map_preserve hne]
  · rw [if_neg hany]
    simp only [FS.find]
    rw [find?_append_single_ne hne]

lemma append_single_ne {p q : FsPath} {a b : String} (h : a ≠ b) :
    p ++ [a] ≠ q ++ [b] := by
  intro heq
  have h2 := congrArg List.getLast? heq
  rw [List.getLast?_concat, List.getLast?_concat] at h2
  exact h (Option.some.inj h2)

/-! ## C5: target validation happens before any mutation -/

/-- C5: when the template path exists but the resolved target is a file,
or a directory with at least one entry, `generateProject` fails — with a
message containing "not empty" in the non-empty-directory case — and the
returned filesystem is exactly the input one: the target check precedes
every copy or write. -/
theorem generate_rejects_bad_target (fs : FS) (read : ManifestReadResult)
    (opts : GeneratorOptions)
    (htpl : fs.pathExists (resolveTemplateFlavorPath read opts.startersPath
      opts.templateId opts.flavor) = true) :
    (∀ c, fs.find opts.targetDir = some (.file c) →
      generateProject fs read opts =
        (.error ("Target path exists but is not a directory: "
          ++ pathToString opts.targetDir), fs)) ∧
    (fs.find opts.targetDir = some .dir →
      (fs.childEntries opts.targetDir).isEmpty = false →
      ∃ m, generateProject fs read opts = (.error m, fs) ∧
        strContainsSub m "not empty") := by
  constructor
  · intro c hfind
    simp [generateProject, htpl, validateTargetDir, hfind]
  · intro hdir hne
    refine ⟨("Target directory is not empty: "
        ++ pathToString opts.targetDir)
        ++ "\nPlease choose an empty directory or a new path.", ?_, ?_⟩
    · simp [generateProject, htpl, validateTargetDir, hdir, hne]
    · exact strContainsSub_append_left _ (strContainsSub_append_left _
        (by decide : strContainsSub "Target directory is not empty: "
          "not empty"))

/-! ## C7: env bootstrap is non-destructive and verbatim -/

lemma ensureEnvFile_existing {fs : FS} {tmpl dest : FsPath} {name : String}
    {e : FsNode} (hex : fs.find (dest ++ [".env." ++ name]) = some e) :
    ensureEnvFile fs tmpl dest name = .ok fs := by
  unfold ensureEnvFile
  rw [if_pos (by simp [FS.pathExists, hex])]

lemma ensureEnvFile_creates {fs : FS} {tmpl dest : FsPath} {name : String}
    {c : String}
    (hnone : fs.find (dest ++ [".env." ++ name]) = none)
    (htm : fs.find (tmpl ++ [".env." ++ name ++ ".template"])
      = some (.file c)) :
    ensureEnvFile fs tmpl dest name
      = .ok (fs.setEntry (dest ++ [".env." ++ name]) (.file c)) := by
  unfold ensureEnvFile
  rw [if_neg (by simp [FS.pathExists, hnone]),
    if_pos (by simp [FS.pathExists, htm])]
  unfold copyFileNode
  rw [htm]

lemma ensureEnvFile_preserves {fs fs' : FS} {tmpl dest : FsPath}
    {name : String} (h : ensureEnvFile fs tmpl dest name = .ok fs')
    {q : FsPath} (hq : q ≠ dest ++ [".env." ++ name]) :
    fs'.find q = fs.find q := by
  unfold ensureEnvFile at h
  by_cases hex : fs.pathExists (dest ++ [".env." ++ name]) = true
  · rw [if_pos hex] at h
    rw [← Except.ok.inj h]
  · rw [if_neg hex] at h
    by_cases htm :
        fs.pathExists (tmpl ++ [".env." ++ name ++ ".template"]) = true
    · rw [if_pos htm] at h
      unfold copyFileNode at h
      cases hf : fs.find (tmpl ++ [".env." ++ name ++ ".template"]) with
      | none => rw [hf] at h; exact absurd h (by simp)
      | some nd =>
        cases nd with
        | dir => rw [hf] at h; exact absurd h (by simp)
        | file c =>
          rw [hf] at h
          rw [← Except.ok.inj h]
          exact FS.find_setEntry_ne fs _ hq
    · rw [if_neg htm] at h
      rw [← Except.ok.inj h]

/-- C7: `ensureEnvFiles` is non-destructive and copies verbatim.  For each
name in {agent, client}: a pre-existing `.env.<name>` at the target keeps
exactly its node (even when a differing template exists at the source);
when it is absent and `.env.<name>.template` exists as a file at the
source, the run (when it succeeds) creates `.env.<name>` with exactly the
template's content — no substitution is applied. -/
theorem ensureEnvFiles_nondestructive_verbatim (fs : FS)
    (tmpl dest : FsPath) :
    (∀ name ∈ ["agent", "client"], ∀ e : FsNode,
      fs.find (dest ++ [".env." ++ name]) = some e →
      (ensureEnvFiles fs tmpl dest).2.find (dest ++ [".env." ++ name])
        = some e) ∧
    (∀ name ∈ ["agent", "client"], ∀ c : String,
      fs.find (dest ++ [".env." ++ name]) = none →
      fs.find (tmpl ++ [".env." ++ name ++ ".template"]) = some (.file c) →
      (ensureEnvFiles fs tmpl dest).1 = .ok () →
      (ensureEnvFiles fs tmpl dest).2.find (dest ++ [".env." ++ name])
        = some (.file c)) := by
  have hac : ("agent" : String) ≠ "client" := by decide
  have hca : ("client" : String) ≠ "agent" := by decide
  constructor
  · intro name hname e hfind
    have hname2 : name = "agent" ∨ name = "client" := by simpa using hname
    rcases hname2 with h | h
    · subst h
      have ha := @ensureEnvFile_existing fs tmpl dest "agent" e hfind
      simp only [ensureEnvFiles, ha]
      cases hc : ensureEnvFile fs tmpl dest "client" with
      | error e2 => exact hfind
      | ok fs2 =>
        simp only
        rw [ensureEnvFile_preserves hc
          (append_single_ne (by decide))]
        exact hfind
    · subst h
      cases ha : ensureEnvFile fs tmpl dest "agent" with
      | error e2 =>
        simp only [ensureEnvFiles, ha]
        exact hfind
      | ok fs1 =>
        have h1 : fs1.find (dest ++ [".env." ++ "client"])
            = some e := by
          rw [ensureEnvFile_preserves ha (append_single_ne (by decide))]
          exact hfind
        have hc := @ensureEnvFile_existing fs1 tmpl dest "client" e h1
        simp only [ensureEnvFiles, ha, hc]
        exact h1
  · intro name hname c hnone htm hok
    have hname2 : name = "agent" ∨ name = "client" := by simpa using hname
    rcases hname2 with h | h
    · subst h
      have ha := ensureEnvFile_creates hnone htm
      simp only [ensureEnvFiles, ha]
      cases hc : ensureEnvFile (fs.setEntry (dest ++ [".env." ++ "agent"])
          (.file c)) tmpl dest "client" with
      | error e2 =>
        exfalso
        simp only [ensureEnvFiles, ha, hc] at hok
        exact absurd hok (by simp)
      | ok fs2 =>
        simp only
        rw [ensureEnvFile_preserves hc (append_single_ne (by decide))]
        exact FS.find_setEntry_self fs _ _
    · subst h
      cases ha : ensureEnvFile fs tmpl dest "agent" with
      | error e2 =>
        exfalso
        simp only [ensureEnvFiles, ha] at hok
        exact absurd hok (by simp)
      | ok fs1 =>
        have h1 : fs1.find (dest ++ [".env." ++ "client"]) = none := by
          rw [ensureEnvFile_preserves ha (append_single_ne (by decide))]
          exact hnone
        have h2 : fs1.find (tmpl ++ [".env." ++ "client" ++ ".template"])
            = some (.file c) := by
          rw [ensureEnvFile_preserves ha (append_single_ne (by decide))]
          exact htm
        have hc := ensureEnvFile_creates h1 h2
        simp only [ensureEnvFiles, ha, hc]
        exact FS.find_setEntry_self fs1 _ _

/-! ## Line-splitting lemmas for the gitignore idempotence claim -/

lemma splitLinesData_ne_nil (l : List Char) : splitLinesData l ≠ [] := by
  rcases l with _ | ⟨c, _ | ⟨d, rest⟩⟩
  · simp [splitLinesData]
  · simp only [splitLinesData]
    by_cases h : c = '\n' <;> simp [h]
  · simp only [splitLinesData]
    by_cases h1 : c = '\n'
    · simp [h1]
    · rw [if_neg h1]
      by_cases h2 : c = '\r' ∧ d = '\n'
      · simp [h2]
      · rw [if_neg h2]
        cases splitLinesData (d :: rest) <;> simp [consHead]

lemma splitLinesData_eq_single_nil {x : List Char}
    (h : splitLinesData x = [[]]) : x = [] := by
  rcases x with _ | ⟨c, _ | ⟨d, rest⟩⟩
  · rfl
  · exfalso
    simp only [splitLinesData] at h
    by_cases hc : c = '\n'
    · simp [hc] at h
    · rw [if_neg hc] at h
      simp at h
  · exfalso
    simp only [splitLinesData] at h
    by_cases h1 : c = '\n'
    · rw [if_pos h1] at h
      simp at h
      exact splitLinesData_ne_nil _ h
    · rw [if_neg h1] at h
      by_cases h2 : c = '\r' ∧ d = '\n'
      · rw [if_pos h2] at h
        simp at h
        exact splitLinesData_ne_nil _ h
      · rw [if_neg h2] at h
        cases hS : splitLinesData (d :: rest) with
        | nil => exact splitLinesData_ne_nil _ hS
        | cons l ls =>
          rw [hS] at h
          simp [consHead] at h

lemma closeLine_cons_of_ne {l : List Char} {ls : List (List Char)}
    (h : ls ≠ []) : closeLine (l :: ls) = l :: closeLine ls := by
  simp only [closeLine]
  rw [if_neg h]

lemma splitLines_cons_nl (rest : List Char) :
    splitLinesData ('\n' :: rest) = [] :: splitLinesData rest := by
  cases rest with
  | nil => simp [splitLinesData]
  | cons d t => simp [splitLinesData]

lemma splitLines_cons_crnl {rest : List Char} (h : rest.head? = some '\n') :
    splitLinesData ('\r' :: rest) = [] :: splitLinesData rest.tail := by
  cases rest with
  | nil => simp at h
  | cons d t =>
    have hd : d = '\n' := by simpa using h
    subst hd
    simp [splitLinesData]

lemma splitLines_cons_other {c : Char} {rest : List Char} (h1 : ¬ c = '\n')
    (h2 : ¬ (c = '\r' ∧ rest.head? = some '\n')) :
    splitLinesData (c :: rest) = consHead c (splitLinesData rest) := by
  cases rest with
  | nil =>
    simp only [splitLinesData]
    rw [if_neg h1]
    simp [splitLinesData, consHead]
  | cons d t =>
    have h2' : ¬ (c = '\r' ∧ d = '\n') := by
      intro hcon
      exact h2 ⟨hcon.1, by simp [hcon.2]⟩
    simp only [splitLinesData]
    rw [if_neg h1, if_neg h2']

lemma splitLines_append_newline (x y : List Char) :
    splitLinesData (x ++ '\n' :: y)
      = closeLine (splitLinesData x) ++ splitLinesData y := by
  have main : ∀ n (x : List Char), x.length ≤ n → ∀ y : List Char,
      splitLinesData (x ++ '\n' :: y)
        = closeLine (splitLinesData x) ++ splitLinesData y := by
    intro n
    induction n with
    | zero =>
      intro x hx y
      have hx0 : x = [] := by
        cases x with
        | nil => rfl
        | cons c r => simp at hx
      subst hx0
      rw [List.nil_append, splitLines_cons_nl]
      simp [splitLinesData, closeLine, stripCR]
    | succ n ihn =>
      intro x hx y
      cases x with
      | nil =>
        rw [List.nil_append, splitLines_cons_nl]
        simp [splitLinesData, closeLine, stripCR]
      | cons c x' =>
        have hx' : x'.length ≤ n := by
          simp only [List.length_cons] at hx
          omega
        by_cases h1 : c = '\n'
        · subst h1
          rw [List.cons_append, splitLines_cons_nl, splitLines_cons_nl,
            ihn x' hx' y, closeLine_cons_of_ne (splitLinesData_ne_nil x')]
          simp
        · by_cases h2 : c = '\r' ∧ (x' ++ '\n' :: y).head? = some '\n'
          · obtain ⟨hc, hhd⟩ := h2
            subst hc
            cases x' with
            | nil =>
              rw [List.cons_append, List.nil_append,
                splitLines_cons_crnl (by simp)]
              rw [splitLines_cons_other (by decide) (by simp)]
              simp [splitLinesData, closeLine, stripCR, consHead]
            | cons d x'' =>
              have hd : d = '\n' := by simpa using hhd
              subst hd
              have hx'' : x''.length ≤ n := by
                simp only [List.length_cons] at hx
                omega
              rw [List.cons_append, List.cons_append,
                splitLines_cons_crnl (by simp), splitLines_cons_crnl (by simp)]
              simp only [List.tail_cons]
              rw [ihn x'' hx'' y,
                closeLine_cons_of_ne (splitLinesData_ne_nil x'')]
              simp
          · have h2' : ¬ (c = '\r' ∧ x'.head? = some '\n') := by
              intro hcon
              apply h2
              refine ⟨hcon.1, ?_⟩
              cases x' with
              | nil => exact absurd hcon.2 (by simp)
              | cons d t => simpa using hcon.2
            rw [List.cons_append, splitLines_cons_other h1 h2,
              splitLines_cons_other h1 h2', ihn x' hx' y]
            cases hS : splitLinesData x' with
            | nil => exact absurd hS (splitLinesData_ne_nil x')
            | cons l ls =>
              cases ls with
              | nil =>
                have hne : ¬ (c = '\r' ∧ l = []) := by
                  intro hcon
                  obtain ⟨hcr, hl⟩ := hcon
                  subst hl
                  have hx0 : x' = [] := splitLinesData_eq_single_nil hS
                  subst hx0
                  exact h2 ⟨hcr, by simp⟩
                have hstrip : stripCR (c :: l) = c :: stripCR l := by
                  simp only [stripCR]
                  rw [if_neg hne]
                rw [show closeLine [l] = [stripCR l] from by simp [closeLine]]
                simp only [List.singleton_append, consHead]
                rw [show closeLine [c :: l] = [stripCR (c :: l)] from by
                  simp [closeLine], hstrip]
                simp
              | cons l2 ls' =>
                rw [closeLine_cons_of_ne (show l2 :: ls' ≠ [] from by simp)]
                simp only [consHead, List.cons_append]
                rw [closeLine_cons_of_ne (show l2 :: ls' ≠ [] from by simp)]
                simp
  exact main x.length x (le_refl _) y

lemma dropWhile_ws_append_cr (w : List Char) :
    (w ++ ['\r']).dropWhile isJsWs
      = if (w.dropWhile isJsWs).isEmpty then []
        else w.dropWhile isJsWs ++ ['\r'] := by
  induction w with
  | nil => simp [List.dropWhile, isJsWs]
  | cons c w' ih =>
    by_cases hc : isJsWs c = true
    · rw [List.cons_append, List.dropWhile_cons_of_pos hc,
        List.dropWhile_cons_of_pos hc]
      exact ih
    · rw [List.cons_append, List.dropWhile_cons_of_neg hc,
        List.dropWhile_cons_of_neg hc]
      simp

lemma jsTrim_append_cr (w : List Char) :
    jsTrimData (w ++ ['\r']) = jsTrimData w := by
  unfold jsTrimData
  rw [dropWhile_ws_append_cr]
  by_cases h : (w.dropWhile isJsWs).isEmpty
  · rw [if_pos h]
    have h2 : w.dropWhile isJsWs = [] := by simpa using h
    rw [h2]
  · rw [if_neg h]
    rw [List.reverse_append]
    simp only [List.reverse_cons, List.reverse_nil, List.nil_append,
      List.singleton_append]
    rw [List.dropWhile_cons_of_pos (by decide)]

lemma stripCR_append_single (w : List Char) : stripCR (w ++ ['\r']) = w := by
  induction w with
  | nil => simp [stripCR]
  | cons c rest ih =>
    rw [List.cons_append]
    simp only [stripCR]
    rw [if_neg (by simp)]
    rw [ih]

lemma stripCR_eq_self {l : List Char} (h : ¬ l.getLast? = some '\r') :
    stripCR l = l := by
  induction l with
  | nil => rfl
  | cons c rest ih =>
    simp only [stripCR]
    by_cases hr : c = '\r' ∧ rest = []
    · exfalso
      obtain ⟨h1, h2⟩ := hr
      subst h1
      subst h2
      simp at h
    · rw [if_neg hr]
      have hrest : ¬ rest.getLast? = some '\r' := by
        intro hlast
        apply h
        cases rest with
        | nil => simp at hlast
        | cons d t =>
          rw [List.getLast?_cons_cons]
          exact hlast
      rw [ih hrest]

lemma eq_stripCR_append {l : List Char} (h : l.getLast? = some '\r') :
    l = stripCR l ++ ['\r'] := by
  have h2 : l = l.dropLast ++ ['\r'] := eq_append_single_of_getLast? h rfl
  have h3 : stripCR l = l.dropLast := by
    conv_lhs => rw [h2]
    exact stripCR_append_single _
  rw [h3]
  exact h2

lemma jsTrim_stripCR (l : List Char) : jsTrimData (stripCR l) = jsTrimData l := by
  by_cases h : l.getLast? = some '\r'
  · conv_rhs => rw [eq_stripCR_append h]
    rw [jsTrim_append_cr]
  · rw [stripCR_eq_self h]

lemma map_jsTrim_closeLine (L : List (List Char)) :
    (closeLine L).map jsTrimData = L.map jsTrimData := by
  induction L with
  | nil => rfl
  | cons l ls ih =>
    simp only [closeLine]
    by_cases h : ls = []
    · subst h
      rw [if_pos rfl]
      simp [jsTrim_stripCR]
    · rw [if_neg h]
      simp only [List.map_cons]
      rw [ih]

lemma existing_append_newline (x y : List Char) :
    gitignoreExistingData (x ++ '\n' :: y)
      = gitignoreExistingData x ++ gitignoreExistingData y := by
  unfold gitignoreExistingData
  rw [splitLines_append_newline, List.map_append, map_jsTrim_closeLine,
    List.filter_append]

/-! ## C8: gitignore bootstrap -/

lemma existing_nil : gitignoreExistingData [] = [] := by decide

lemma existing_of_contains {content : List Char} {e : String}
    (h : (gitignoreExistingData content).contains e.data = true) :
    e.data ∈ gitignoreExistingData content := by
  simpa using h

/-- After appending the missing entries (with the separator rule of the
source), every gitignore entry is present as a trimmed whole line. -/
lemma entries_present_after_append (content : String) :
    ∀ e ∈ GITIGNORE_ENTRIES,
      e.data ∈ gitignoreExistingData
        (content ++ (if strEndsWithNewline content then "" else "\n")
          ++ String.intercalate "\n" (gitignoreMissing content)
          ++ "\n").data := by
  have hsplit : ∀ J : String,
      (content ++ (if strEndsWithNewline content then "" else "\n")
        ++ J ++ "\n").data
      = content.data ++ '\n' :: (J.data ++ ['\n'])
      ∨ (∃ w, content.data = w ++ ['\n'] ∧
        (content ++ (if strEndsWithNewline content then "" else "\n")
          ++ J ++ "\n").data
        = w ++ '\n' :: (J.data ++ ['\n'])) := by
    intro J
    by_cases hend : strEndsWithNewline content = true
    · right
      have hlast : content.data.getLast? = some '\n' := by
        simpa [strEndsWithNewline] using hend
      refine ⟨content.data.dropLast,
        eq_append_single_of_getLast? hlast rfl, ?_⟩
      rw [if_pos hend]
      simp only [String.data_append]
      conv_lhs => rw [eq_append_single_of_getLast? hlast rfl]
      simp
    · left
      rw [if_neg hend]
      simp only [String.data_append]
      simp
  have hmem_miss : ∀ e ∈ gitignoreMissing content,
      e.data ∈ gitignoreExistingData
        ((String.intercalate "\n" (gitignoreMissing content)).data
          ++ ['\n']) := by
    have hM : gitignoreMissing content = []
        ∨ gitignoreMissing content = [".env.agent"]
        ∨ gitignoreMissing content = [".env.client"]
        ∨ gitignoreMissing content = [".env.agent", ".env.client"] := by
      unfold gitignoreMissing GITIGNORE_ENTRIES
      simp only [List.filter_cons, List.filter_nil]
      cases hba : (gitignoreExistingData content.data).contains
          ".env.agent".data <;>
        cases hbc : (gitignoreExistingData content.data).contains
            ".env.client".data <;>
          simp
    rcases hM with hM | hM | hM | hM <;> rw [hM] <;> intro e he
    · exact absurd he (by simp)
    · have he' : e = ".env.agent" := by simpa using he
      subst he'
      decide
    · have he' : e = ".env.client" := by simpa using he
      subst he'
      decide
    · have he' : e = ".env.agent" ∨ e = ".env.client" := by simpa using he
      rcases he' with he' | he' <;> subst he' <;> decide
  intro e he
  rcases hsplit (String.intercalate "\n" (gitignoreMissing content)) with
    h | ⟨w, hw, h⟩
  · rw [h, existing_append_newline]
    by_cases hc : (gitignoreExistingData content.data).contains e.data = true
    · exact List.mem_append_left _ (existing_of_contains hc)
    · refine List.mem_append_right _ (hmem_miss e ?_)
      unfold gitignoreMissing
      rw [List.mem_filter]
      exact ⟨he, by simpa using hc⟩
  · rw [h, existing_append_newline]
    by_cases hc : (gitignoreExistingData content.data).contains e.data = true
    · refine List.mem_append_left _ ?_
      have hwe : gitignoreExistingData content.data
          = gitignoreExistingData w := by
        rw [hw, show (['\n'] : List Char) = '\n' :: ([] : List Char)
          from rfl, existing_append_newline, existing_nil, List.append_nil]
      have := existing_of_contains hc
      rwa [hwe] at this
    · refine List.mem_append_right _ (hmem_miss e ?_)
      unfold gitignoreMissing
      rw [List.mem_filter]
      exact ⟨he, by simpa using hc⟩

/-- C8: `ensureGitignoreHasEnvEntries` (a) creates a `.gitignore` with
exactly the two lines `.env.agent` and `.env.client` when none exists;
(b) when one exists as a file, succeeds and either leaves the filesystem
unchanged (nothing missing) or appends exactly the missing entries after
the existing content, inserting a separating newline only when the content
did not end with one — and afterwards both entries are present as trimmed
whole lines; and (c) is idempotent: a successful application applied again
returns the same filesystem, so the file is byte-identical. -/
theorem gitignore_create_append_idempotent (fs : FS) (dest : FsPath) :
    (fs.find (dest ++ [".gitignore"]) = none →
      ensureGitignoreHasEnvEntries fs dest
        = .ok (fs.setEntry (dest ++ [".gitignore"])
            (.file ".env.agent\n.env.client\n"))) ∧
    (∀ content, fs.find (dest ++ [".gitignore"]) = some (.file content) →
      ∃ fs', ensureGitignoreHasEnvEntries fs dest = .ok fs' ∧
        (gitignoreMissing content = [] → fs' = fs) ∧
        (gitignoreMissing content ≠ [] →
          fs' = fs.setEntry (dest ++ [".gitignore"])
            (.file (content
              ++ (if strEndsWithNewline content then "" else "\n")
              ++ String.intercalate "\n" (gitignoreMissing content)
              ++ "\n"))) ∧
        (∀ c2, fs'.find (dest ++ [".gitignore"]) = some (.file c2) →
          ∀ e ∈ GITIGNORE_ENTRIES,
            e.data ∈ gitignoreExistingData c2.data)) ∧
    (∀ fs', ensureGitignoreHasEnvEntries fs dest = .ok fs' →
      ensureGitignoreHasEnvEntries fs' dest = .ok fs') := by
  refine ⟨?_, ?_, ?_⟩
  · intro hfind
    simp only [ensureGitignoreHasEnvEntries, hfind]
    rfl
  · intro content hfind
    simp only [ensureGitignoreHasEnvEntries, hfind]
    by_cases hm : (gitignoreMissing content).isEmpty
    · rw [if_pos hm]
      have hm' : gitignoreMissing content = [] := by simpa using hm
      refine ⟨fs, rfl, fun _ => rfl, fun hne => absurd hm' hne, ?_⟩
      intro c2 hc2 e he
      have hc2' : c2 = content := by
        rw [hfind] at hc2
        exact (FsNode.file.inj (Option.some.inj hc2)).symm
      rw [hc2']
      have := List.filter_eq_nil_iff.mp hm' e he
      have hcon : (gitignoreExistingData content.data).contains e.data
          = true := by
        simpa using this
      exact existing_of_contains hcon
    · rw [if_neg hm]
      have hm' : ¬ gitignoreMissing content = [] := by simpa using hm
      refine ⟨_, rfl, fun he => absurd he hm', fun _ => rfl, ?_⟩
      intro c2 hc2 e he
      rw [FS.find_setEntry_self] at hc2
      have hc2' : c2 = content
          ++ (if strEndsWithNewline content then "" else "\n")
          ++ String.intercalate "\n" (gitignoreMissing content)
          ++ "\n" := (FsNode.file.inj (Option.some.inj hc2)).symm
      subst hc2'
      exact entries_present_after_append content e he
  · intro fs' h
    cases hfind : fs.find (dest ++ [".gitignore"]) with
    | none =>
      simp only [ensureGitignoreHasEnvEntries, hfind] at h
      have hfs' : fs' = fs.setEntry (dest ++ [".gitignore"])
          (.file (String.intercalate "\n" GITIGNORE_ENTRIES ++ "\n")) :=
        (Except.ok.inj h).symm
      subst hfs'
      simp only [ensureGitignoreHasEnvEntries, FS.find_setEntry_self]
      rw [if_pos (by decide)]
    | some nd =>
      cases nd with
      | dir =>
        simp only [ensureGitignoreHasEnvEntries, hfind] at h
        exact absurd h (by simp)
      | file content =>
        simp only [ensureGitignoreHasEnvEntries, hfind] at h
        by_cases hm : (gitignoreMissing content).isEmpty
        · rw [if_pos hm] at h
          have hfs' : fs' = fs := (Except.ok.inj h).symm
          subst hfs'
          simp only [ensureGitignoreHasEnvEntries, hfind]
          rw [if_pos hm]
        · rw [if_neg hm] at h
          have hm' : ¬ gitignoreMissing content = [] := by simpa using hm
          have hfs' : fs' = fs.setEntry (dest ++ [".gitignore"])
              (.file (content
                ++ (if strEndsWithNewline content then "" else "\n")
                ++ String.intercalate "\n" (gitignoreMissing content)
                ++ "\n")) := (Except.ok.inj h).symm
          subst hfs'
          simp only [ensureGitignoreHasEnvEntries, FS.find_setEntry_self]
          have hnil : gitignoreMissing (content
              ++ (if strEndsWithNewline content then "" else "\n")
              ++ String.intercalate "\n" (gitignoreMissing content)
              ++ "\n") = [] := by
            apply List.filter_eq_nil_iff.mpr
            intro e he
            have hmem := entries_present_after_append content e he
            simp [gitignoreMissing] at hmem ⊢
            exact hmem
          rw [if_pos (by simpa using hnil)]

/-! ## replaceAll occurrence lemmas (for the substitution claim) -/

lemma subTrans {a b c : List Char} (h1 : a <:+: b) (h2 : b <:+: c) :
    a <:+: c := by
  obtain ⟨u1, w1, hb⟩ := h1
  obtain ⟨u2, w2, hc⟩ := h2
  exact ⟨u2 ++ u1, w1 ++ w2, by rw [← hc, ← hb]; simp⟩

lemma dropSub (l : List Char) (n : Nat) : l.drop n <:+: l :=
  ⟨l.take n, [], by simp⟩

lemma prefixSub {a b : List Char} (h : a <+: b) : a <:+: b := by
  obtain ⟨u, hu⟩ := h
  exact ⟨[], u, by simpa using hu⟩

lemma tailSub (c : Char) (l : List Char) : l <:+: c :: l :=
  ⟨[c], [], by simp⟩

lemma mem_of_sub {a : Char} {l1 l2 : List Char} (h : l1 <:+: l2)
    (ha : a ∈ l1) : a ∈ l2 := by
  obtain ⟨u, w, hl⟩ := h
  rw [← hl]
  simp [ha]

lemma head_of_prefix_cons {d : Char} {t2 w : List Char}
    (h : d :: t2 <+: w) : w.head? = some d := by
  obtain ⟨u, hu⟩ := h
  rw [← hu]
  rfl

lemma head?_append_left {v X : List Char} (hv : v ≠ []) :
    (v ++ X).head? = v.head? := by
  cases v with
  | nil => exact absurd rfl hv
  | cons a t => rfl

lemma getLast?_of_drop_singleton {v : List Char} {k : Nat} {d : Char}
    (h : v.drop k = [d]) : v.getLast? = some d := by
  have h2 : v = v.take k ++ [d] := by rw [← h, List.take_append_drop]
  rw [h2, List.getLast?_concat]

lemma sub_cons_decomp {l : List Char} {c : Char} {w : List Char}
    (h : l <:+: c :: w) : l <+: c :: w ∨ l <:+: w := by
  obtain ⟨u, t, hut⟩ := h
  cases u with
  | nil => exact Or.inl ⟨t, by simpa using hut⟩
  | cons x u' =>
    right
    rw [List.cons_append, List.cons_append] at hut
    injection hut with h1 h2
    exact ⟨u', t, h2⟩

lemma infix_append_split {l a b : List Char} (h : l <:+: a ++ b) :
    (∃ k, k < a.length ∧ l <+: (a.drop k ++ b)) ∨ l <:+: b := by
  induction a with
  | nil => exact Or.inr (by simpa using h)
  | cons x a' ih =>
    rw [List.cons_append] at h
    rcases sub_cons_decomp h with h | h
    · exact Or.inl ⟨0, by simp, by simpa using h⟩
    · rcases ih h with ⟨k, hk, hp⟩ | h2
      · exact Or.inl ⟨k + 1, by simpa using Nat.succ_lt_succ hk, hp⟩
      · exact Or.inr h2

/-- Scanner invariant: a prefix of the output that is a suffix-part of a
pattern `U` whose characters the replacement value cannot start, is also a
prefix of the input. -/
lemma replaceAll_suffix_prefix {T v U : List Char} (hv0 : v ≠ [])
    (hvhead : ∀ c, v.head? = some c → c ∉ U) :
    ∀ (s t1 t2 : List Char), U = t1 ++ t2 →
      t2 <+: replaceAllData T v s → t2 <+: s ∨ t2 = [] := by
  intro s
  induction s with
  | nil =>
    intro t1 t2 _ hp
    right
    simpa [replaceAllData, replAux] using hp
  | cons c rest ih =>
    intro t1 t2 hU hp
    by_cases hm : T ≠ [] ∧ T <+: (c :: rest)
    · rw [replaceAll_cons_match v hm] at hp
      cases ht2 : t2 with
      | nil => exact Or.inr rfl
      | cons d t2' =>
        exfalso
        rw [ht2] at hp
        have hhd := head_of_prefix_cons hp
        rw [head?_append_left hv0] at hhd
        have hdU : d ∈ U := by
          rw [hU, ht2]
          exact List.mem_append_right _ (List.mem_cons_self _ _)
        exact hvhead d hhd hdU
    · rw [replaceAll_cons_nomatch v hm] at hp
      cases ht2 : t2 with
      | nil => exact Or.inr rfl
      | cons d t2' =>
        rw [ht2, List.cons_prefix_cons] at hp
        obtain ⟨hd, hp2⟩ := hp
        rcases ih (t1 ++ [d]) t2' (by rw [hU, ht2]; simp) hp2 with h | h
        · exact Or.inl (List.cons_prefix_cons.mpr ⟨hd, h⟩)
        · refine Or.inl (List.cons_prefix_cons.mpr ⟨hd, ?_⟩)
          rw [h]
          exact List.nil_prefix

/-- `replaceAll` leaves no occurrence of the replaced token, provided the
replacement value is non-empty, starts with a char foreign to the token,
does not end with an underscore, and contains no double underscore (the
token starts with two underscores). -/
lemma replaceAll_no_self_token {T v : List Char}
    (hT : ∃ T2, T = '_' :: '_' :: T2)
    (hv0 : v ≠ []) (hvhead : ∀ c, v.head? = some c → c ∉ T)
    (hvlast : ¬ v.getLast? = some '_') (hvdd : ¬ ['_', '_'] <:+: v) :
    ∀ s, ¬ T <:+: replaceAllData T v s := by
  have main : ∀ n s, s.length ≤ n → ¬ T <:+: replaceAllData T v s := by
    intro n
    induction n with
    | zero =>
      intro s hs hocc
      have hs0 : s = [] := List.length_eq_zero.mp (Nat.le_zero.mp hs)
      subst hs0
      obtain ⟨T2, hT2⟩ := hT
      rw [hT2] at hocc
      simp [replaceAllData, replAux] at hocc
    | succ n ihn =>
      intro s hs hocc
      cases s with
      | nil =>
        obtain ⟨T2, hT2⟩ := hT
        rw [hT2] at hocc
        simp [replaceAllData, replAux] at hocc
      | cons c rest =>
        by_cases hm : T ≠ [] ∧ T <+: (c :: rest)
        · rw [replaceAll_cons_match v hm] at hocc
          rcases infix_append_split hocc with ⟨k, hk, hp⟩ | hocc2
          · obtain ⟨T2, hT2⟩ := hT
            cases hdk : v.drop k with
            | nil =>
              have hlen := congrArg List.length hdk
              simp only [List.length_drop, List.length_nil] at hlen
              omega
            | cons d w =>
              rw [hT2, hdk, List.cons_append, List.cons_prefix_cons] at hp
              obtain ⟨hd, hp2⟩ := hp
              cases w with
              | nil =>
                apply hvlast
                rw [getLast?_of_drop_singleton hdk, ← hd]
              | cons d2 w' =>
                rw [List.cons_append, List.cons_prefix_cons] at hp2
                obtain ⟨hd2, _⟩ := hp2
                apply hvdd
                have hpre : [d, d2] <+: v.drop k := by
                  rw [hdk]
                  exact ⟨w', rfl⟩
                have hsub : ([d, d2] : List Char) <:+: v :=
                  subTrans (prefixSub hpre) (dropSub v k)
                rw [← hd, ← hd2] at hsub
                exact hsub
          · have hT1 : 1 ≤ T.length := by
              obtain ⟨T2, hT2⟩ := hT
              rw [hT2]
              simp
            have hlen : ((c :: rest).drop T.length).length ≤ n := by
              simp only [List.length_drop, List.length_cons]
              simp only [List.length_cons] at hs
              omega
            exact ihn _ hlen hocc2
        · rw [replaceAll_cons_nomatch v hm] at hocc
          rcases sub_cons_decomp hocc with hp | hocc2
          · obtain ⟨T2, hT2⟩ := hT
            rw [hT2, List.cons_prefix_cons] at hp
            obtain ⟨hd, hp2⟩ := hp
            rcases replaceAll_suffix_prefix hv0 hvhead rest ['_']
              ('_' :: T2) (by rw [hT2]; rfl) hp2 with h | h
            · apply hm
              refine ⟨by rw [hT2]; simp, ?_⟩
              rw [hT2, List.cons_prefix_cons]
              exact ⟨hd, h⟩
            · simp at h
          · have hlen : rest.length ≤ n := by
              simp only [List.length_cons] at hs
              omega
            exact ihn rest hlen hocc2
  intro s
  exact main s.length s (le_refl _)

/-- `replaceAll` of any token `T` introduces no occurrence of a token `U`
absent from the input, under the same conditions on the replacement value
relative to `U`. -/
lemma replaceAll_preserves_no_token {T v U : List Char}
    (hU : ∃ U2, U = '_' :: '_' :: U2)
    (hv0 : v ≠ []) (hvhead : ∀ c, v.head? = some c → c ∉ U)
    (hvlast : ¬ v.getLast? = some '_') (hvdd : ¬ ['_', '_'] <:+: v) :
    ∀ s, ¬ U <:+: s → ¬ U <:+: replaceAllData T v s := by
  have main : ∀ n s, s.length ≤ n → ¬ U <:+: s →
      ¬ U <:+: replaceAllData T v s := by
    intro n
    induction n with
    | zero =>
      intro s hs hns hocc
      have hs0 : s = [] := List.length_eq_zero.mp (Nat.le_zero.mp hs)
      subst hs0
      obtain ⟨U2, hU2⟩ := hU
      rw [hU2] at hocc
      simp [replaceAllData, replAux] at hocc
    | succ n ihn =>
      intro s hs hns hocc
      cases s with
      | nil =>
        obtain ⟨U2, hU2⟩ := hU
        rw [hU2] at hocc
        simp [replaceAllData, replAux] at hocc
      | cons c rest =>
        by_cases hm : T ≠ [] ∧ T <+: (c :: rest)
        · rw [replaceAll_cons_match v hm] at hocc
          rcases infix_append_split hocc with ⟨k, hk, hp⟩ | hocc2
          · obtain ⟨U2, hU2⟩ := hU
            cases hdk : v.drop k with
            | nil =>
              have hlen := congrArg List.length hdk
              simp only [List.length_drop, List.length_nil] at hlen
              omega
            | cons d w =>
              rw [hU2, hdk, List.cons_append, List.cons_prefix_cons] at hp
              obtain ⟨hd, hp2⟩ := hp
              cases w with
              | nil =>
                apply hvlast
                rw [getLast?_of_drop_singleton hdk, ← hd]
              | cons d2 w' =>
                rw [List.cons_append, List.cons_prefix_cons] at hp2
                obtain ⟨hd2, _⟩ := hp2
                apply hvdd
                have hpre : [d, d2] <+: v.drop k := by
                  rw [hdk]
                  exact ⟨w', rfl⟩
                have hsub : ([d, d2] : List Char) <:+: v :=
                  subTrans (prefixSub hpre) (dropSub v k)
                rw [← hd, ← hd2] at hsub
                exact hsub
          · have hlen : ((c :: rest).drop T.length).length ≤ n := by
              have hT1 : 1 ≤ T.length := by
                cases T with
                | nil => exact absurd rfl hm.1
                | cons x xs => simp
              simp only [List.length_drop, List.length_cons]
              simp only [List.length_cons] at hs
              omega
            have hns2 : ¬ U <:+: (c :: rest).drop T.length := fun hcon =>
              hns (subTrans hcon (dropSub _ _))
            exact ihn _ hlen hns2 hocc2
        · rw [replaceAll_cons_nomatch v hm] at hocc
          rcases sub_cons_decomp hocc with hp | hocc2
          · obtain ⟨U2, hU2⟩ := hU
            rw [hU2, List.cons_prefix_cons] at hp
            obtain ⟨hd, hp2⟩ := hp
            rcases replaceAll_suffix_prefix hv0 hvhead rest ['_']
              ('_' :: U2) (by rw [hU2]; rfl) hp2 with h | h
            · apply hns
              apply prefixSub
              rw [hU2, List.cons_prefix_cons]
              exact ⟨hd, h⟩
            · simp at h
          · have hlen : rest.length ≤ n := by
              simp only [List.length_cons] at hs
              omega
            have hns2 : ¬ U <:+: rest := fun hcon =>
              hns (subTrans hcon (tailSub c rest))
            exact ihn rest hlen hns2 hocc2
  intro s
  exact main s.length s (le_refl _)

/-! ## Sanitizer output shape lemmas -/

/-- The amended-claim restriction on project names: non-empty, starting
with a lowercase letter, all characters lowercase letters, digits or
hyphens. -/
def simpleName : List Char → Bool
  | [] => false
  | c :: rest =>
    isLowerCh c && (c :: rest).all (fun d => isLowerCh d || isDigitCh d || d = '-')

lemma simple_ge45 {c : Char}
    (h : (isLowerCh c || isDigitCh c || c = '-') = true) : 45 ≤ c.toNat := by
  simp only [Bool.or_eq_true] at h
  rcases h with (h | h) | h
  · simp only [isLowerCh, Bool.and_eq_true, decide_eq_true_eq] at h
    omega
  · simp only [isDigitCh, Bool.and_eq_true, decide_eq_true_eq] at h
    omega
  · have hc : c = '-' := by simpa using h
    subst hc
    decide

lemma simple_not_ws {c : Char} (hn : 45 ≤ c.toNat) : isJsWs c = false := by
  have hne : ∀ w : Char, w.toNat < 45 → decide (c = w) = false := by
    intro w hw
    apply decide_eq_false
    intro hc
    rw [hc] at hn
    omega
  simp only [isJsWs]
  rw [hne ' ' (by decide), hne '\t' (by decide), hne '\n' (by decide),
    hne '\r' (by decide), hne '\x0b' (by decide), hne '\x0c' (by decide)]
  rfl

lemma simple_ne_us {c : Char}
    (h : (isLowerCh c || isDigitCh c || c = '-') = true) : ¬ c = '_' := by
  intro hc
  subst hc
  exact absurd h (by decide)

lemma asciiLower_of_simple {c : Char}
    (h : (isLowerCh c || isDigitCh c || c = '-') = true) :
    asciiLower c = c := by
  have hno : ¬ (65 ≤ c.toNat ∧ c.toNat ≤ 90) := by
    simp only [Bool.or_eq_true] at h
    rcases h with (h | h) | h
    · simp only [isLowerCh, Bool.and_eq_true, decide_eq_true_eq] at h
      omega
    · simp only [isDigitCh, Bool.and_eq_true, decide_eq_true_eq] at h
      omega
    · have hc : c = '-' := by simpa using h
      subst hc
      decide
  unfold asciiLower
  rw [if_neg hno]

lemma map_id_on {f : Char → Char} {l : List Char} (h : ∀ c ∈ l, f c = c) :
    l.map f = l := by
  induction l with
  | nil => rfl
  | cons c cs ih =>
    simp only [List.map_cons]
    rw [h c (by simp), ih (fun d hd => h d (List.mem_cons_of_mem _ hd))]

lemma collapse_id {p : Char → Bool} {r : Char} {l : List Char}
    (h : ∀ c ∈ l, p c = false) : ∀ b, collapseAux p r l b = l := by
  induction l with
  | nil => intro b; rfl
  | cons c cs ih =>
    intro b
    simp only [collapseAux]
    rw [if_neg (by simp [h c (by simp)])]
    rw [ih (fun d hd => h d (List.mem_cons_of_mem _ hd)) false]

lemma collapse_mem {p : Char → Bool} {r : Char} :
    ∀ {l : List Char} {b : Bool} {c : Char},
      c ∈ collapseAux p r l b → c ∈ l ∨ c = r := by
  intro l
  induction l with
  | nil => intro b c h; exact absurd h (by simp [collapseAux])
  | cons d cs ih =>
    intro b c h
    simp only [collapseAux] at h
    by_cases hd : p d = true
    · rw [if_pos hd] at h
      by_cases hb : b = true
      · rw [if_pos hb] at h
        rcases ih h with h2 | h2
        · exact Or.inl (List.mem_cons_of_mem _ h2)
        · exact Or.inr h2
      · rw [if_neg hb] at h
        rcases List.mem_cons.mp h with h2 | h2
        · exact Or.inr h2
        · rcases ih h2 with h3 | h3
          · exact Or.inl (List.mem_cons_of_mem _ h3)
          · exact Or.inr h3
    · rw [if_neg hd] at h
      rcases List.mem_cons.mp h with h2 | h2
      · exact Or.inl (by rw [h2]; simp)
      · rcases ih h2 with h3 | h3
        · exact Or.inl (List.mem_cons_of_mem _ h3)
        · exact Or.inr h3

lemma dropOneLeading_mem {p : Char → Bool} {l : List Char} {c : Char}
    (h : c ∈ dropOneLeading p l) : c ∈ l := by
  cases l with
  | nil => exact absurd h (by simp [dropOneLeading])
  | cons d cs =>
    simp only [dropOneLeading] at h
    by_cases hd : p d = true
    · rw [if_pos hd] at h
      exact List.mem_cons_of_mem _ h
    · rwa [if_neg hd] at h

lemma dropOneTrailing_mem {r : Char} {l : List Char} {c : Char}
    (h : c ∈ dropOneTrailing r l) : c ∈ l := by
  unfold dropOneTrailing at h
  cases hl : l.getLast? with
  | none => rwa [hl] at h
  | some d =>
    rw [hl] at h
    dsimp only at h
    by_cases hd : d = r
    · rw [if_pos hd] at h
      exact List.dropLast_subset l h
    · rwa [if_neg hd] at h

lemma trimEdges_mem {r : Char} {l : List Char} {c : Char}
    (h : c ∈ trimEdges r l) : c ∈ l :=
  dropOneLeading_mem (dropOneTrailing_mem h)

lemma toPackageName_chars {l : List Char} :
    ∀ c ∈ toPackageNameData l,
      (isLowerCh c || isDigitCh c || c = '-' || c = '@' || c = '/')
        = true := by
  intro c hc
  unfold toPackageNameData at hc
  have h1 := trimEdges_mem hc
  rcases collapse_mem h1 with h2 | h2
  · have h3 := dropOneLeading_mem h2
    have h4 := (List.mem_filter.mp h3).2
    simpa using h4
  · simp [h2]

lemma toPythonPackage_chars {l : List Char} :
    ∀ c ∈ toPythonPackageData l,
      (isLowerCh c || isDigitCh c || c = '_') = true := by
  intro c hc
  unfold toPythonPackageData at hc
  have h1 := trimEdges_mem hc
  rcases collapse_mem h1 with h2 | h2
  · have h3 := dropOneLeading_mem h2
    have h4 := (List.mem_filter.mp h3).2
    simpa using h4
  · simp [h2]

lemma dropOneTrailing_cons_head {r c : Char} {w : List Char} (hc : ¬ c = r) :
    ∃ w2, dropOneTrailing r (c :: w) = c :: w2 := by
  unfold dropOneTrailing
  cases hl : (c :: w).getLast? with
  | none => simp at hl
  | some d =>
    dsimp only
    by_cases hd : d = r
    · rw [if_pos hd]
      cases w with
      | nil =>
        exfalso
        simp at hl
        rw [hl, hd] at hc
        exact hc rfl
      | cons e w' => exact ⟨(e :: w').dropLast, by simp [List.dropLast]⟩
    · rw [if_neg hd]
      exact ⟨w, rfl⟩

lemma collapse_cons_head {p : Char → Bool} {r c : Char} {l : List Char}
    (hc : p c = false) :
    collapseAux p r (c :: l) false = c :: collapseAux p r l false := by
  simp only [collapseAux]
  rw [if_neg (by simp [hc])]

/-- Head preservation: on a simple name starting with a lowercase letter,
`toPackageName` keeps that first letter. -/
lemma toPackageName_head {c : Char} {rest : List Char}
    (hc : isLowerCh c = true)
    (hall : ∀ d ∈ c :: rest, (isLowerCh d || isDigitCh d || d = '-') = true) :
    ∃ w, toPackageNameData (c :: rest) = c :: w := by
  unfold toPackageNameData
  dsimp only
  have h1 : (c :: rest).map asciiLower = c :: rest :=
    map_id_on (fun d hd => asciiLower_of_simple (hall d hd))
  rw [h1]
  have h2 : collapseRuns isJsWs '-' (c :: rest) = c :: rest :=
    collapse_id (fun d hd => simple_not_ws (simple_ge45 (hall d hd))) false
  rw [show collapseRuns isJsWs '-' (c :: rest)
      = collapseAux isJsWs '-' (c :: rest) false from rfl] at h2
  rw [show collapseRuns isJsWs '-' (c :: rest)
      = collapseAux isJsWs '-' (c :: rest) false from rfl, h2]
  have h3 : (c :: rest).map (fun d => if d = '_' then '-' else d)
      = c :: rest :=
    map_id_on (fun d hd => by rw [if_neg (simple_ne_us (hall d hd))])
  rw [h3]
  have h4 : (c :: rest).filter
      (fun d => isLowerCh d || isDigitCh d || d = '-' || d = '@' || d = '/')
      = c :: rest := by
    rw [List.filter_eq_self]
    intro d hd
    have := hall d hd
    simp only [Bool.or_eq_true] at this ⊢
    tauto
  rw [h4]
  have h5 : dropOneLeading (fun d => !(isLowerCh d || d = '@')) (c :: rest)
      = c :: rest := by
    simp only [dropOneLeading]
    rw [if_neg (by simp [hc])]
  rw [h5]
  have hcnr : ¬ c = '-' := by
    intro hcon
    rw [hcon] at hc
    exact absurd hc (by decide)
  rw [show collapseRuns (fun d => d = '-') '-' (c :: rest)
      = collapseAux (fun d => d = '-') '-' (c :: rest) false from rfl]
  rw [collapse_cons_head (by simp [hcnr])]
  unfold trimEdges
  rw [show dropOneLeading (fun d => d = '-')
      (c :: collapseAux (fun d => d = '-') '-' rest false)
      = c :: collapseAux (fun d => d = '-') '-' rest false from by
    simp only [dropOneLeading]
    rw [if_neg (by simp [hcnr])]]
  exact dropOneTrailing_cons_head hcnr

/-- Head preservation for `toPythonPackage` on a simple name. -/
lemma toPythonPackage_head {c : Char} {rest : List Char}
    (hc : isLowerCh c = true)
    (hall : ∀ d ∈ c :: rest, (isLowerCh d || isDigitCh d || d = '-') = true) :
    ∃ w, toPythonPackageData (c :: rest) = c :: w := by
  unfold toPythonPackageData
  dsimp only
  have h1 : (c :: rest).map asciiLower = c :: rest :=
    map_id_on (fun d hd => asciiLower_of_simple (hall d hd))
  rw [h1]
  have h2 : collapseRuns isJsWs '_' (c :: rest) = c :: rest :=
    collapse_id (fun d hd => simple_not_ws (simple_ge45 (hall d hd))) false
  rw [show collapseRuns isJsWs '_' (c :: rest)
      = collapseAux isJsWs '_' (c :: rest) false from rfl] at h2
  rw [show collapseRuns isJsWs '_' (c :: rest)
      = collapseAux isJsWs '_' (c :: rest) false from rfl, h2]
  have hcl : 97 ≤ c.toNat ∧ c.toNat ≤ 122 := by
    simpa [isLowerCh] using hc
  have hcnh : ¬ c = '-' := by
    intro hcon
    rw [hcon] at hcl
    revert hcl
    decide
  have hcnu : ¬ c = '_' := by
    intro hcon
    rw [hcon] at hcl
    revert hcl
    decide
  have hmap : (c :: rest).map (fun d => if d = '-' then '_' else d)
      = c :: rest.map (fun d => if d = '-' then '_' else d) := by
    simp only [List.map_cons]
    rw [if_neg hcnh]
  rw [hmap]
  have hfil : (c :: rest.map (fun d => if d = '-' then '_' else d)).filter
      (fun d => isLowerCh d || isDigitCh d || d = '_')
      = c :: rest.map (fun d => if d = '-' then '_' else d) := by
    rw [List.filter_eq_self]
    intro d hd
    rcases List.mem_cons.mp hd with hd | hd
    · subst hd
      simp [hc]
    · rw [List.mem_map] at hd
      obtain ⟨e, he, hde⟩ := hd
      have hse := hall e (List.mem_cons_of_mem _ he)
      by_cases hee : e = '-'
      · rw [← hde, hee]
        simp
      · rw [← hde, if_neg hee]
        simp only [Bool.or_eq_true] at hse ⊢
        rcases hse with (h | h) | h
        · tauto
        · tauto
        · exact absurd (of_decide_eq_true h) hee
  rw [hfil]
  have h5 : dropOneLeading (fun d => !(isLowerCh d))
      (c :: rest.map (fun d => if d = '-' then '_' else d))
      = c :: rest.map (fun d => if d = '-' then '_' else d) := by
    simp only [dropOneLeading]
    rw [if_neg (by simp [hc])]
  rw [h5]
  rw [show collapseRuns (fun d => d = '_') '_'
      (c :: rest.map (fun d => if d = '-' then '_' else d))
      = collapseAux (fun d => d = '_') '_'
        (c :: rest.map (fun d => if d = '-' then '_' else d)) false from rfl]
  rw [collapse_cons_head (by simp [hcnu])]
  unfold trimEdges
  rw [show dropOneLeading (fun d => d = '_')
      (c :: collapseAux (fun d => d = '_') '_'
        (rest.map (fun d => if d = '-' then '_' else d)) false)
      = c :: collapseAux (fun d => d = '_') '_'
        (rest.map (fun d => if d = '-' then '_' else d)) false from by
    simp only [dropOneLeading]
    rw [if_neg (by simp [hcnu])]]
  exact dropOneTrailing_cons_head hcnu

lemma collapse_no_double {p : Char → Bool} {r : Char} (hpr : p r = true) :
    ∀ (l : List Char) (b : Bool),
      (¬ [r, r] <:+: collapseAux p r l b) ∧
      (b = true → ¬ (collapseAux p r l b).head? = some r) := by
  intro l
  induction l with
  | nil =>
    intro b
    refine ⟨?_, ?_⟩
    · rintro ⟨u, w, huw⟩
      simp [collapseAux] at huw
    · intro _ hcon
      simp [collapseAux] at hcon
  | cons c cs ih =>
    intro b
    simp only [collapseAux]
    by_cases hc : p c = true
    · rw [if_pos hc]
      by_cases hb : b = true
      · rw [if_pos hb]
        exact ⟨(ih true).1, fun _ => (ih true).2 rfl⟩
      · rw [if_neg hb]
        refine ⟨?_, ?_⟩
        · intro hsub
          rcases sub_cons_decomp hsub with hpre | htail
          · obtain ⟨_, h2⟩ := List.cons_prefix_cons.mp hpre
            exact (ih true).2 rfl (head_of_prefix_cons h2)
          · exact (ih true).1 htail
        · intro hb2
          exact absurd hb2 hb
    · rw [if_neg hc]
      have hcr : ¬ c = r := fun h => hc (h ▸ hpr)
      refine ⟨?_, fun _ hcon => ?_⟩
      · intro hsub
        rcases sub_cons_decomp hsub with hpre | htail
        · obtain ⟨h1, _⟩ := List.cons_prefix_cons.mp hpre
          exact hcr h1.symm
        · exact (ih false).1 htail
      · simp only [List.head?] at hcon
        exact hcr (Option.some.inj hcon)

lemma dropOneLeading_sub {p : Char → Bool} (l : List Char) :
    dropOneLeading p l <:+: l := by
  cases l with
  | nil => exact ⟨[], [], rfl⟩
  | cons c cs =>
    simp only [dropOneLeading]
    by_cases hc : p c = true
    · rw [if_pos hc]
      exact tailSub c cs
    · rw [if_neg hc]

lemma dropLast_sub (l : List Char) : l.dropLast <:+: l := by
  cases hl : l.getLast? with
  | none =>
    have hnil : l = [] := by
      cases l with
      | nil => rfl
      | cons c cs => simp at hl
    rw [hnil]
    exact ⟨[], [], rfl⟩
  | some a =>
    have hsp := eq_append_single_of_getLast? hl rfl
    exact ⟨[], [a], by simpa using hsp.symm⟩

lemma dropOneTrailing_sub {r : Char} (l : List Char) :
    dropOneTrailing r l <:+: l := by
  unfold dropOneTrailing
  cases hl : l.getLast? with
  | none =>
    dsimp only
    exact ⟨[], [], by simp⟩
  | some d =>
    dsimp only
    by_cases hd : d = r
    · rw [if_pos hd]
      exact dropLast_sub l
    · rw [if_neg hd]

lemma noDouble_of_sub {r : Char} {a b : List Char} (hab : a <:+: b)
    (hb : ¬ [r, r] <:+: b) : ¬ [r, r] <:+: a :=
  fun h => hb (subTrans h hab)

lemma dropOneTrailing_last {r : Char} {m : List Char}
    (hnd : ¬ [r, r] <:+: m) :
    ¬ (dropOneTrailing r m).getLast? = some r := by
  unfold dropOneTrailing
  cases hl : m.getLast? with
  | none =>
    dsimp only
    intro hcon
    rw [hl] at hcon
    exact Option.noConfusion hcon
  | some d =>
    dsimp only
    by_cases hd : d = r
    · rw [if_pos hd]
      intro hcon
      apply hnd
      have hm : m = m.dropLast ++ [d] := eq_append_single_of_getLast? hl rfl
      have hm2 : m.dropLast = m.dropLast.dropLast ++ [r] :=
        eq_append_single_of_getLast? hcon rfl
      rw [hm, hm2, hd]
      exact ⟨m.dropLast.dropLast, [], by simp⟩
    · rw [if_neg hd]
      intro hcon
      rw [hl] at hcon
      exact hd (Option.some.inj hcon)

/-- The python-package sanitizer never produces two consecutive
underscores. -/
lemma toPythonPackage_no_double (l : List Char) :
    ¬ ['_', '_'] <:+: toPythonPackageData l := by
  unfold toPythonPackageData trimEdges
  dsimp only
  apply noDouble_of_sub (dropOneTrailing_sub _)
  apply noDouble_of_sub (dropOneLeading_sub _)
  exact (@collapse_no_double (fun c => decide (c = '_')) '_' (by simp) _ false).1

/-- The python-package sanitizer never produces a trailing underscore. -/
lemma toPythonPackage_last (l : List Char) :
    ¬ (toPythonPackageData l).getLast? = some '_' := by
  unfold toPythonPackageData trimEdges
  dsimp only
  apply dropOneTrailing_last
  apply noDouble_of_sub (dropOneLeading_sub _)
  exact (@collapse_no_double (fun c => decide (c = '_')) '_' (by simp) _ false).1

/-! ## C6: placeholder elimination -/

/-- The per-entry transformation performed by `substituteInDirectory`. -/
def substNode (dirPath : FsPath) (subs : List (String × String))
    (p : FsPath) (nd : FsNode) : FsNode :=
  match dropPrefixPath dirPath p with
  | some rel =>
    if rel.isEmpty || underExcludedDir rel then nd
    else
      match nd with
      | .file content =>
        if isBinaryFile p then nd else .file (substituteContent subs content)
      | .dir => nd
  | none => nd

lemma substituteInDirectory_eq (fs : FS) (dirPath : FsPath)
    (subs : List (String × String)) :
    substituteInDirectory fs dirPath subs
      = ⟨fs.entries.map (fun e => (e.1, substNode dirPath subs e.1 e.2))⟩ := by
  unfold substituteInDirectory
  congr 1
  apply List.map_congr_left
  intro e _
  obtain ⟨p, nd⟩ := e
  unfold substNode
  dsimp only
  cases dropPrefixPath dirPath p with
  | none => rfl
  | some rel =>
    dsimp only
    by_cases hre : (rel.isEmpty || underExcludedDir rel) = true
    · rw [if_pos hre, if_pos hre]
    · rw [if_neg hre, if_neg hre]
      cases nd with
      | dir => rfl
      | file content =>
        dsimp only
        by_cases hb : isBinaryFile p = true
        · rw [if_pos hb, if_pos hb]
        · rw [if_neg hb, if_neg hb]

lemma find_substInDir (fs : FS) (dirPath : FsPath)
    (subs : List (String × String)) (p : FsPath) :
    (substituteInDirectory fs dirPath subs).find p
      = (fs.find p).map (substNode dirPath subs p) := by
  rw [substituteInDirectory_eq]
  show (FS.mk (fs.entries.map (fun e => (e.1, substNode dirPath subs e.1 e.2)))).find p
    = (fs.find p).map (substNode dirPath subs p)
  unfold FS.find
  induction fs.entries with
  | nil => rfl
  | cons e rest ih =>
    simp only [List.map_cons]
    by_cases hp : e.1 = p
    · rw [find?_cons_true
        (show ((e.1, substNode dirPath subs e.1 e.2) : FsPath × FsNode).1 = p
          from hp),
        find?_cons_true hp]
      dsimp only [Option.map]
      rw [hp]
    · rw [find?_cons_false
        (show ¬ ((e.1, substNode dirPath subs e.1 e.2) : FsPath × FsNode).1 = p
          from hp),
        find?_cons_false hp]
      exact ih

/-- One pass of `substituteContent`. -/
def substStep (pv : String × String) (acc : String) : String :=
  if pv.1.data <:+: acc.data then replaceAllStr pv.1 pv.2 acc else acc

lemma substituteContent_three (a b c : String × String) (content : String) :
    substituteContent [a, b, c] content
      = substStep c (substStep b (substStep a content)) := rfl

lemma substStep_no_self {T v : String}
    (hT : ∃ T2, T.data = '_' :: '_' :: T2)
    (hv0 : v.data ≠ []) (hvhead : ∀ c, v.data.head? = some c → c ∉ T.data)
    (hvlast : ¬ v.data.getLast? = some '_')
    (hvdd : ¬ ['_', '_'] <:+: v.data) (s : String) :
    ¬ T.data <:+: (substStep (T, v) s).data := by
  unfold substStep
  by_cases h : T.data <:+: s.data
  · rw [if_pos h]
    exact replaceAll_no_self_token hT hv0 hvhead hvlast hvdd s.data
  · rw [if_neg h]
    exact h

lemma substStep_preserve {U v : String} (T : String)
    (hU : ∃ U2, U.data = '_' :: '_' :: U2)
    (hv0 : v.data ≠ []) (hvhead : ∀ c, v.data.head? = some c → c ∉ U.data)
    (hvlast : ¬ v.data.getLast? = some '_')
    (hvdd : ¬ ['_', '_'] <:+: v.data) (s : String)
    (hs : ¬ U.data <:+: s.data) :
    ¬ U.data <:+: (substStep (T, v) s).data := by
  unfold substStep
  by_cases h : T.data <:+: s.data
  · rw [if_pos h]
    exact replaceAll_preserves_no_token hU hv0 hvhead hvlast hvdd s.data hs
  · rw [if_neg h]
    exact hs

lemma mem_of_getLast_opt {l : List Char} {d : Char}
    (h : l.getLast? = some d) : d ∈ l := by
  have hsp := eq_append_single_of_getLast? h rfl
  rw [hsp]
  simp

/-- Core of the amended C6: for a simple project name, after
`substituteContent` with the substitution map, no placeholder token
remains in the content. -/
lemma substituteContent_no_tokens {projectName : String}
    (hname : simpleName projectName.data = true) (content : String) :
    ∀ tok ∈ ["__PROJECT_NAME__", "__PACKAGE_NAME__", "__PY_PACKAGE__"],
      ¬ tok.data <:+:
        (substituteContent (buildSubstitutions projectName) content).data := by
  cases hpn : projectName.data with
  | nil =>
    rw [hpn] at hname
    exact absurd hname (by simp [simpleName])
  | cons c rest =>
    rw [hpn] at hname
    simp only [simpleName, Bool.and_eq_true] at hname
    obtain ⟨hc, hall0⟩ := hname
    have hall : ∀ d ∈ c :: rest, (isLowerCh d || isDigitCh d || d = '-') = true := by
      intro d hd
      have := List.all_eq_true.mp hall0 d hd
      simpa using this
    -- Conditions for v1 = projectName itself
    have hv1simple : ∀ d ∈ projectName.data,
        (isLowerCh d || isDigitCh d || d = '-') = true := by
      rw [hpn]; exact hall
    have hv1_0 : projectName.data ≠ [] := by rw [hpn]; simp
    have hv1_head : projectName.data.head? = some c := by rw [hpn]; rfl
    have hv1_last : ¬ projectName.data.getLast? = some '_' := by
      intro hcon
      exact simple_ne_us (hv1simple _ (mem_of_getLast_opt hcon)) rfl
    have hv1_dd : ¬ ['_', '_'] <:+: projectName.data := by
      intro hcon
      have hm : '_' ∈ projectName.data := mem_of_sub hcon (by simp)
      exact simple_ne_us (hv1simple _ hm) rfl
    -- Conditions for v2 = toPackageName projectName
    obtain ⟨w2, hw2⟩ := toPackageName_head hc hall
    have hw2' : (toPackageName projectName).data = c :: w2 := by
      show toPackageNameData projectName.data = c :: w2
      rw [hpn]; exact hw2
    have hv2_0 : (toPackageName projectName).data ≠ [] := by rw [hw2']; simp
    have hv2_head : (toPackageName projectName).data.head? = some c := by
      rw [hw2']; rfl
    have hv2_last : ¬ (toPackageName projectName).data.getLast? = some '_' := by
      intro hcon
      have hm := mem_of_getLast_opt hcon
      have := @toPackageName_chars projectName.data '_' hm
      exact absurd this (by decide)
    have hv2_dd : ¬ ['_', '_'] <:+: (toPackageName projectName).data := by
      intro hcon
      have hm : '_' ∈ (toPackageName projectName).data :=
        mem_of_sub hcon (by simp)
      have := @toPackageName_chars projectName.data '_' hm
      exact absurd this (by decide)
    -- Conditions for v3 = toPythonPackage projectName
    obtain ⟨w3, hw3⟩ := toPythonPackage_head hc hall
    have hw3' : (toPythonPackage projectName).data = c :: w3 := by
      show toPythonPackageData projectName.data = c :: w3
      rw [hpn]; exact hw3
    have hv3_0 : (toPythonPackage projectName).data ≠ [] := by rw [hw3']; simp
    have hv3_head : (toPythonPackage projectName).data.head? = some c := by
      rw [hw3']; rfl
    have hv3_last : ¬ (toPythonPackage projectName).data.getLast? = some '_' :=
      toPythonPackage_last projectName.data
    have hv3_dd : ¬ ['_', '_'] <:+: (toPythonPackage projectName).data :=
      toPythonPackage_no_double projectName.data
    -- The head character is lowercase, hence in no token
    have hc_not : ∀ (tk : String), tk.data.all (fun d => !(isLowerCh d)) = true →
        c ∉ tk.data := by
      intro tk htk hmem
      have h2 := List.all_eq_true.mp htk c hmem
      rw [hc] at h2
      simp at h2
    have hvhead_of : ∀ (vd : List Char), vd.head? = some c →
        ∀ (tk : String), tk.data.all (fun d => !(isLowerCh d)) = true →
        ∀ e, vd.head? = some e → e ∉ tk.data := by
      intro vd hvd tk htk e he
      rw [hvd] at he
      rw [← Option.some.inj he]
      exact hc_not tk htk
    have htk1 : ("__PROJECT_NAME__" : String).data.all
        (fun d => !(isLowerCh d)) = true := by decide
    have htk2 : ("__PACKAGE_NAME__" : String).data.all
        (fun d => !(isLowerCh d)) = true := by decide
    have htk3 : ("__PY_PACKAGE__" : String).data.all
        (fun d => !(isLowerCh d)) = true := by decide
    have hT1 : ∃ T2, ("__PROJECT_NAME__" : String).data = '_' :: '_' :: T2 :=
      ⟨"PROJECT_NAME__".data, by decide⟩
    have hT2 : ∃ T2, ("__PACKAGE_NAME__" : String).data = '_' :: '_' :: T2 :=
      ⟨"PACKAGE_NAME__".data, by decide⟩
    have hT3 : ∃ T2, ("__PY_PACKAGE__" : String).data = '_' :: '_' :: T2 :=
      ⟨"PY_PACKAGE__".data, by decide⟩
    intro tok htok
    have hfold : substituteContent (buildSubstitutions projectName) content
        = substStep ("__PY_PACKAGE__", toPythonPackage projectName)
            (substStep ("__PACKAGE_NAME__", toPackageName projectName)
              (substStep ("__PROJECT_NAME__", projectName) content)) := rfl
    rw [hfold]
    have htok3 : tok = "__PROJECT_NAME__" ∨ tok = "__PACKAGE_NAME__"
        ∨ tok = "__PY_PACKAGE__" := by simpa using htok
    rcases htok3 with h | h | h
    · subst h
      apply substStep_preserve _ hT1 hv3_0
        (hvhead_of _ hv3_head _ htk1) hv3_last hv3_dd
      apply substStep_preserve _ hT1 hv2_0
        (hvhead_of _ hv2_head _ htk1) hv2_last hv2_dd
      exact substStep_no_self hT1 hv1_0
        (hvhead_of _ hv1_head _ htk1) hv1_last hv1_dd content
    · subst h
      apply substStep_preserve _ hT2 hv3_0
        (hvhead_of _ hv3_head _ htk2) hv3_last hv3_dd
      exact substStep_no_self hT2 hv2_0
        (hvhead_of _ hv2_head _ htk2) hv2_last hv2_dd _
    · subst h
      exact substStep_no_self hT3 hv3_0
        (hvhead_of _ hv3_head _ htk3) hv3_last hv3_dd _

/-- C6 counterexample: the claim quantifies over every project name, but
with the project name `"__PROJECT_NAME__"` the substitution replaces the
placeholder by itself, so a text file (non-binary, not under an excluded
directory) still contains `__PROJECT_NAME__` after the substitution
step. -/
theorem substitution_token_counterexample :
    (substituteInDirectory
        ⟨[(["proj"], FsNode.dir),
          (["proj", "README.md"], FsNode.file "__PROJECT_NAME__")]⟩
        ["proj"] (buildSubstitutions "__PROJECT_NAME__")).find
        ["proj", "README.md"]
      = some (FsNode.file "__PROJECT_NAME__")
    ∧ dropPrefixPath ["proj"] ["proj", "README.md"] = some ["README.md"]
    ∧ underExcludedDir ["README.md"] = false
    ∧ isBinaryFile ["proj", "README.md"] = false
    ∧ ("__PROJECT_NAME__" : String).data <:+:
        ("__PROJECT_NAME__" : String).data := by
  refine ⟨by decide, by decide, by decide, by decide, ?_⟩
  exact ⟨[], [], by simp⟩

/-- C6 (amended): for a project name that is non-empty, starts with a
lowercase letter and consists of lowercase letters, digits and hyphens,
every file that `substituteInDirectory` rewrites — under the target, not
the target itself, not beneath a `node_modules`/`.git` directory, and not
binary by extension — contains zero occurrences of `__PROJECT_NAME__`,
`__PACKAGE_NAME__` and `__PY_PACKAGE__` after the substitution step. -/
theorem substitution_leaves_no_placeholder
    (fs : FS) (target : FsPath) (projectName : String)
    (hname : simpleName projectName.data = true)
    (p : FsPath) (content : String)
    (hfind : (substituteInDirectory fs target
        (buildSubstitutions projectName)).find p
      = some (.file content))
    (rel : FsPath) (hrel : dropPrefixPath target p = some rel)
    (hrel0 : rel ≠ []) (hexcl : underExcludedDir rel = false)
    (hbin : isBinaryFile p = false) :
    ∀ tok ∈ ["__PROJECT_NAME__", "__PACKAGE_NAME__", "__PY_PACKAGE__"],
      ¬ tok.data <:+: content.data := by
  rw [find_substInDir] at hfind
  cases hf : fs.find p with
  | none =>
    rw [hf] at hfind
    exact absurd hfind (by simp)
  | some nd =>
    rw [hf] at hfind
    dsimp only [Option.map] at hfind
    have hnd := Option.some.inj hfind
    unfold substNode at hnd
    rw [hrel] at hnd
    dsimp only at hnd
    have hcond : (rel.isEmpty || underExcludedDir rel) = false := by
      rw [hexcl]
      cases rel with
      | nil => exact absurd rfl hrel0
      | cons a as => simp [List.isEmpty]
    rw [if_neg (by simp [hcond])] at hnd
    cases nd with
    | dir => exact absurd hnd (by simp)
    | file c0 =>
      dsimp only at hnd
      rw [if_neg (by simp [hbin])] at hnd
      have hc0 := FsNode.file.inj hnd
      rw [← hc0]
      exact substituteContent_no_tokens hname c0

/-- Closed witness: generating with project name `"my-awesome-project"`
leaves no `__PROJECT_NAME__` in the rewritten README. -/
theorem substitution_leaves_no_placeholder_witness :
    ¬ ("__PROJECT_NAME__" : String).data <:+:
      ("# my-awesome-project uses my-awesome-project and my_awesome_project"
        : String).data :=
  substitution_leaves_no_placeholder
    ⟨[(["app"], FsNode.dir),
      (["app", "README.md"],
        FsNode.file
          "# __PROJECT_NAME__ uses __PACKAGE_NAME__ and __PY_PACKAGE__")]⟩
    ["app"] "my-awesome-project" (by decide)
    ["app", "README.md"]
    "# my-awesome-project uses my-awesome-project and my_awesome_project"
    (by decide) ["README.md"] (by decide) (by decide) (by decide) (by decide)
    "__PROJECT_NAME__" (by simp)

/-! ## Claim witnesses -/

/-- Witness for C1 at a concrete template: a cli-requested flavor in the
flavor set wins over a valid default and never prompts. -/
theorem selectFlavor_precedence_witness :
    selectFlavor ⟨"t", none, none, ["a", "b"], [], [], none, none, none,
        none, none⟩ (some "b") "a" (some (some "a"))
      = (.ok ⟨"b", .cli⟩, 0) :=
  (selectFlavor_precedence ⟨"t", none, none, ["a", "b"], [], [], none, none,
      none, none, none⟩ (some "b") "a" (some (some "a")) (by decide)).1
    "b" rfl (by decide) (by decide)

/-- Witness for C3 on a concrete filesystem: the discovered flavor
`basic` of template `chat` is a directory on disk. -/
theorem discover_flavors_exist_on_disk_witness :
    (⟨[(["templates"], FsNode.dir), (["templates", "chat"], FsNode.dir),
        (["templates", "chat", "basic"], FsNode.dir)]⟩ : FS).isDirAt
      (["templates", "chat"]
        ++ lookupRel ⟨"chat", some "chat", none, ["basic"], [],
            ["templates", "chat"], none, none, none, none, none⟩ "basic")
      = true :=
  ((discover_flavors_exist_on_disk
      ⟨[(["templates"], FsNode.dir), (["templates", "chat"], FsNode.dir),
        (["templates", "chat", "basic"], FsNode.dir)]⟩ [] .absent
      [⟨"chat", some "chat", none, ["basic"], [], ["templates", "chat"],
        none, none, none, none, none⟩] [] (by unfold FS.Wf; decide)
      (by decide))
    ⟨"chat", some "chat", none, ["basic"], [], ["templates", "chat"],
      none, none, none, none, none⟩ (by simp)).2 "basic" (by simp)

/-- Witness for C4 on a concrete filesystem: a failed manifest read still
returns the scanned template, with the warning emitted. -/
theorem discover_falls_back_on_bad_manifest_witness :
    discoverTemplates ⟨[(["templates"], FsNode.dir),
        (["templates", "chat"], FsNode.dir),
        (["templates", "chat", "basic"], FsNode.dir)]⟩ [] (.failed "boom")
      = (.ok (sortTemplates [⟨"chat", some "chat", none, ["basic"], [],
            ["templates", "chat"], none, none, none, none, none⟩]),
         [buildManifestWarning [] "boom"]) := by
  obtain ⟨ts, h1, h2, _, _⟩ :=
    discover_falls_back_on_bad_manifest ⟨[(["templates"], FsNode.dir),
      (["templates", "chat"], FsNode.dir),
      (["templates", "chat", "basic"], FsNode.dir)]⟩ [] "boom" (by decide)
  have h1b : scanTemplates (⟨[(["templates"], FsNode.dir),
      (["templates", "chat"], FsNode.dir),
      (["templates", "chat", "basic"], FsNode.dir)]⟩ : FS) []
      = .ok [⟨"chat", some "chat", none, ["basic"], [],
          ["templates", "chat"], none, none, none, none, none⟩] := by decide
  rw [h1b] at h1
  rw [Except.ok.inj h1]
  exact h2

/-- Witness for C5 on a concrete filesystem: the target exists as a file,
and generation fails with the exact message, filesystem unchanged. -/
theorem generate_rejects_bad_target_witness :
    generateProject ⟨[(["templates"], FsNode.dir),
        (["templates", "chat"], FsNode.dir),
        (["templates", "chat", "basic"], FsNode.dir),
        (["tgt"], FsNode.file "x")]⟩ .absent
      ⟨["tgt"], "chat", "basic", "proj", []⟩
      = (.error ("Target path exists but is not a directory: "
          ++ pathToString ["tgt"]),
        ⟨[(["templates"], FsNode.dir),
          (["templates", "chat"], FsNode.dir),
          (["templates", "chat", "basic"], FsNode.dir),
          (["tgt"], FsNode.file "x")]⟩) :=
  (generate_rejects_bad_target ⟨[(["templates"], FsNode.dir),
      (["templates", "chat"], FsNode.dir),
      (["templates", "chat", "basic"], FsNode.dir),
      (["tgt"], FsNode.file "x")]⟩ .absent
    ⟨["tgt"], "chat", "basic", "proj", []⟩ (by decide)).1 "x" (by decide)

/-- Witness for C7 on a concrete filesystem: an absent `.env.agent` is
created with exactly the source template content, no substitution. -/
theorem ensureEnvFiles_nondestructive_verbatim_witness :
    (ensureEnvFiles ⟨[(["tpl"], FsNode.dir),
          (["tpl", ".env.agent.template"], FsNode.file "TOKEN="),
          (["dst"], FsNode.dir)]⟩ ["tpl"] ["dst"]).2.find
        (["dst"] ++ [".env." ++ "agent"])
      = some (.file "TOKEN=") :=
  (ensureEnvFiles_nondestructive_verbatim ⟨[(["tpl"], FsNode.dir),
      (["tpl", ".env.agent.template"], FsNode.file "TOKEN="),
      (["dst"], FsNode.dir)]⟩ ["tpl"] ["dst"]).2 "agent" (by simp)
    "TOKEN=" (by decide) (by decide) (by decide)

/-- Witness for C8 on a concrete filesystem: with no `.gitignore` at the
destination, one is created with exactly the two entries. -/
theorem gitignore_create_append_idempotent_witness :
    ensureGitignoreHasEnvEntries ⟨[(["dst"], FsNode.dir)]⟩ ["dst"]
      = .ok ((⟨[(["dst"], FsNode.dir)]⟩ : FS).setEntry
          (["dst"] ++ [".gitignore"]) (.file ".env.agent\n.env.client\n")) :=
  (gitignore_create_append_idempotent ⟨[(["dst"], FsNode.dir)]⟩ ["dst"]).1
    (by decide)

/-- Witness for the amended C9 at a concrete template: the cli
flavor-not-found message enumerates the flavors and points at `--list`. -/
theorem flavorError_messages_witness :
    selectFlavor ⟨"t", none, none, ["a", "b"], [], [], none, none, none,
        none, none⟩ (some "c") "z" none
      = (.error (cliNotFoundMessage "c" "t" ["a", "b"]), 0) ∧
    strContainsSub (cliNotFoundMessage "c" "t" ["a", "b"])
      "Available flavors:" ∧
    strContainsSub (cliNotFoundMessage "c" "t" ["a", "b"]) "--list" :=
  (flavorError_messages ⟨"t", none, none, ["a", "b"], [], [], none, none,
      none, none, none⟩ "z").1 "c" none (by decide) (by decide) (by decide)

end Naylence
